import Mathlib

/-!
Verification development for the pyCodemap resolver and call-graph builder.

The Python source (pycodemap/resolver.py and pycodemap/graph.py) is embedded
shallowly: the analysed project's syntax trees become a Lean inductive type,
the AST visitors become structurally recursive functions, and Python dicts
become association lists whose insertion order mirrors CPython semantics
(assignment to an existing key keeps its position and replaces the value,
a new key is appended; dict iteration follows insertion order).

File collection and text parsing are the external collaborators of the core
(spec section 2); an analysed project is therefore given directly as a list
of parsed files, each carrying its path parts, its syntax tree and its
source lines.
-/

namespace PyCodemap

/-- Association-list lookup, mirroring Python dict lookup / dict.get. -/
def mapLookup {κ β : Type} [DecidableEq κ] : List (κ × β) → κ → Option β
  | [], _ => none
  | (k, v) :: rest, key => if k = key then some v else mapLookup rest key

/-- Association-list assignment d[k] = v: an existing key keeps its position
and gets the new value, a new key is appended (CPython dict semantics). -/
def mapInsert {κ β : Type} [DecidableEq κ] : List (κ × β) → κ → β → List (κ × β)
  | [], key, v => [(key, v)]
  | (k, w) :: rest, key, v =>
      if k = key then (k, v) :: rest else (k, w) :: mapInsert rest key v

/-- Guarded insertion, mirroring resolver.py line 159: a module symbol is
inserted only when its id is not already a key of the symbol table. -/
def mapInsertIfAbsent {κ β : Type} [DecidableEq κ]
    (m : List (κ × β)) (key : κ) (v : β) : List (κ × β) :=
  match mapLookup m key with
  | some _ => m
  | none => mapInsert m key v

/-- Dotted join, mirroring the ".".join calls of resolver.py: the empty
list joins to the empty string, a singleton to itself, and a longer list
puts one dot between consecutive parts. -/
def qualJoin : List String → String
  | [] => ""
  | [p] => p
  | p :: rest => p ++ "." ++ qualJoin rest

/-- Text before the first dot, mirroring s.split(".", 1)[0]. -/
def firstSegment (s : String) : String :=
  String.mk (s.toList.takeWhile (fun c => c != '.'))

/-- Text after the last dot, mirroring s.split(".")[-1]. -/
def lastSegment (s : String) : String :=
  String.mk ((s.toList.reverse.takeWhile (fun c => c != '.')).reverse)

/-- Whether the string contains a dot, mirroring the Python test "." in s. -/
def hasDot (s : String) : Bool :=
  s.toList.contains '.'

/-- Split on the last dot, mirroring s.rsplit(".", 1) for a string that
contains a dot; a dot-free string yields none (the Python code only calls
rsplit after checking "." in s). -/
def rsplitDot (s : String) : Option (String × String) :=
  let cs := s.toList
  let suffix := (cs.reverse.takeWhile (fun c => c != '.')).reverse
  if suffix.length = cs.length then none
  else some (String.mk (cs.take (cs.length - suffix.length - 1)), String.mk suffix)

/-- Symbol kinds of resolver.py line 20:
SymbolKind = Literal["function", "method", "class", "module", "file"].
The constructor cls stands for the source literal "class", which is a
reserved word in Lean. -/
inductive SymbolKind where
  | function
  | method
  | cls
  | module
  | file
deriving DecidableEq, Repr

/-- SourceLocation of resolver.py: a concrete location in a source file,
with the file path kept relative to the project root. -/
structure SourceLocation where
  file : String
  lineno : Nat
  col_offset : Nat
deriving DecidableEq, Repr

/-- Symbol of resolver.py: a named thing in the project. -/
structure Symbol where
  id : String
  kind : SymbolKind
  name : String
  qualname : String
  module : String
  file : String
  start_line : Nat
  end_line : Nat
  snippet : Option String
deriving DecidableEq, Repr

/-- Call of resolver.py: a call site in the code. -/
structure Call where
  caller_id : String
  location : SourceLocation
  raw_callee : String
  callee_id : Option String
deriving DecidableEq, Repr

/-- ResolvedProject of resolver.py: the resolver's output. -/
structure ResolvedProject where
  root : String
  symbols : List (String × Symbol)
  calls : List Call
deriving DecidableEq, Repr

/-- Python expressions, restricted to the shapes the call resolver
distinguishes: a bare name, an attribute access, a call, and a catch-all
dyn constructor for every other expression shape (subscript, lambda,
literal, operator, ...) carrying its sub-expressions so that traversal can
continue into them as ast.NodeVisitor.generic_visit does. -/
inductive PyExpr where
  | name (id : String)
  | attr (value : PyExpr) (attrName : String)
  | call (func : PyExpr) (args : List PyExpr) (lineno : Nat) (col_offset : Nat)
  | dyn (children : List PyExpr)
deriving Repr

/-- Python statements, restricted to the shapes the two visitors
distinguish: function / async-function / class definitions, the two import
forms, an annotated assignment (name with type annotation), a bare
expression statement, and a catch-all otherS constructor for every other
statement (plain assignment, return, if, while, ...) carrying its
expressions and nested statements so traversal continues into them. -/
inductive PyStmt where
  | functionDef (name : String) (isAsync : Bool) (lineno : Nat) (end_lineno : Nat)
      (body : List PyStmt)
  | classDef (name : String) (lineno : Nat) (end_lineno : Nat) (body : List PyStmt)
  | importS (names : List (String × Option String))
  | importFromS (moduleName : Option String) (names : List (String × Option String))
  | annAssign (target : String) (value : Option PyExpr) (lineno : Nat)
  | exprS (e : PyExpr)
  | otherS (exprs : List PyExpr) (body : List PyStmt)
deriving Repr

/-- A parsed source file handed to the resolver: the project-relative path
without its ".py" suffix, split at path separators (so that the dotted
module name of _module_name_from_path is the dotted join of the parts),
the parsed tree and the file's source lines (with line terminators, as
produced by splitlines(keepends=True)). -/
structure PyFile where
  parts : List String
  tree : List PyStmt
  sourceLines : List String
deriving Repr

/-- Dotted module name of a file, mirroring _module_name_from_path. -/
def PyFile.module (f : PyFile) : String :=
  qualJoin f.parts

/-- Project-relative path of a file. -/
def PyFile.relPath (f : PyFile) : String :=
  String.intercalate "/" f.parts ++ ".py"

/-- Snippet extraction of _SymbolVisitor._extract_snippet: clamp the
1-based inclusive line range to the available lines and join the slice. -/
def extractSnippet (sourceLines : List String) (startLine endLine : Nat) : String :=
  let s := max 1 startLine
  let e := min sourceLines.length endLine
  String.join ((sourceLines.drop (s - 1)).take (e - (s - 1)))

/-- Qualified name of _SymbolVisitor._current_qualname: the module, the
enclosing scope names, then the new name, joined with dots (for an empty
stack both Python branches and this definition give module.name). -/
def currentQualname (module : String) (stack : List String) (name : String) : String :=
  qualJoin (module :: stack ++ [name])

/-- Symbol creation of _SymbolVisitor._add_symbol: the id equals the
qualname, and the snippet spans the node's inclusive line range. -/
def mkDefSymbol (module relPath : String) (sourceLines : List String)
    (stack : List String) (kind : SymbolKind) (name : String)
    (lineno end_lineno : Nat) : Symbol :=
  let qualname := currentQualname module stack name
  ⟨qualname, kind, name, qualname, module, relPath, lineno, end_lineno,
    some (extractSnippet sourceLines lineno end_lineno)⟩

mutual

/-- Symbol extraction step of _SymbolVisitor: a function or async-function
definition yields a function symbol at top level and a method symbol inside
any enclosing scope, a class definition yields a class symbol, both are
followed by their body visited with the name pushed on the scope stack;
every other statement contributes no symbol but its nested statements are
still visited (generic_visit). -/
def symbolsFromStmt (module relPath : String) (sourceLines : List String)
    (stack : List String) : PyStmt → List Symbol
  | .functionDef name _ lineno end_lineno body =>
      mkDefSymbol module relPath sourceLines stack
          (if stack.isEmpty then SymbolKind.function else SymbolKind.method)
          name lineno end_lineno
        :: symbolsFromStmts module relPath sourceLines (stack ++ [name]) body
  | .classDef name lineno end_lineno body =>
      mkDefSymbol module relPath sourceLines stack SymbolKind.cls name lineno end_lineno
        :: symbolsFromStmts module relPath sourceLines (stack ++ [name]) body
  | .otherS _ body => symbolsFromStmts module relPath sourceLines stack body
  | _ => []

/-- Pre-order traversal of a statement list for symbol extraction. -/
def symbolsFromStmts (module relPath : String) (sourceLines : List String)
    (stack : List String) : List PyStmt → List Symbol
  | [] => []
  | s :: rest =>
      symbolsFromStmt module relPath sourceLines stack s
        ++ symbolsFromStmts module relPath sourceLines stack rest

end

/-- Module symbol of _make_module_symbol: one module-kind symbol per file,
spanning the whole file, with no snippet. -/
def makeModuleSymbol (module relPath : String) (sourceLines : List String) : Symbol :=
  let nameA := if module = "" then "" else lastSegment module
  let name := if nameA = "" then module else nameA
  let end_line := if sourceLines.isEmpty then 1 else sourceLines.length
  ⟨module, SymbolKind.module, name, module, module, relPath, 1, end_line, none⟩

/-- Kinds taken into the symbol index (_build_symbol_index skips every
other kind). -/
def isCallTargetKind : SymbolKind → Bool
  | .function => true
  | .method => true
  | .cls => true
  | _ => false

/-- Kinds preferred by _pick_best_symbol. -/
def isFuncLikeKind : SymbolKind → Bool
  | .function => true
  | .method => true
  | _ => false

/-- The symbol index of _build_symbol_index: a multimap from
(module, short name) to the candidate symbols, in insertion order. -/
abbrev SymbolIndex := List ((String × String) × List Symbol)

/-- Append a symbol to the candidate list of its key (defaultdict(list)
semantics). -/
def indexAdd (idx : SymbolIndex) (key : String × String) (sym : Symbol) : SymbolIndex :=
  match mapLookup idx key with
  | some syms => mapInsert idx key (syms ++ [sym])
  | none => mapInsert idx key [sym]

/-- Index construction of _build_symbol_index: iterate the symbol table's
values in order, keeping only function / method / class symbols. -/
def buildSymbolIndex (symbols : List (String × Symbol)) : SymbolIndex :=
  symbols.foldl
    (fun idx kv =>
      if isCallTargetKind kv.2.kind then indexAdd idx (kv.2.module, kv.2.name) kv.2
      else idx)
    []

/-- Tie-break of _pick_best_symbol: prefer function / method kind over
class kind, then the first candidate in insertion order. The nonempty
candidate list is passed as head and tail, because the Python code only
calls the helper on a non-empty list. -/
def pickBestSymbol (c : Symbol) (cs : List Symbol) : Symbol :=
  match (c :: cs).filter (fun s => isFuncLikeKind s.kind) with
  | f :: _ => f
  | [] => c

/-- Last-resort global name match of _resolve_callee_id: scan the whole
index for symbols with the given short name and succeed only when exactly
one matches project-wide. -/
def globalNameMatch (name : String) (idx : SymbolIndex) : Option String :=
  let globalMatches :=
    idx.foldl (fun acc kv => if kv.1.2 = name then acc ++ kv.2 else acc) []
  match globalMatches with
  | [s] => some s.id
  | _ => none

/-- Callee resolution of _resolve_callee_id. A dotted string is split on
its last dot and looked up directly; note that on a miss the Python code
skips the current-module lookup (its guard is "if module is None", and
module was assigned by the rsplit) and falls through to the global name
match on the last segment. A bare name is looked up in the current module
and then globally. The test "if candidates:" is false both for a missing
key and for an empty list, hence the match on some (c :: cs). -/
def resolveCalleeId (raw_callee current_module : String) (idx : SymbolIndex) :
    Option String :=
  if raw_callee = "<unknown>" then none
  else
    match rsplitDot raw_callee with
    | some (module, name) =>
        match mapLookup idx (module, name) with
        | some (c :: cs) => some (pickBestSymbol c cs).id
        | _ => globalNameMatch name idx
    | none =>
        match mapLookup idx (current_module, raw_callee) with
        | some (c :: cs) => some (pickBestSymbol c cs).id
        | _ => globalNameMatch raw_callee idx

/-- Callee formatting of _format_callee_expr: a bare name passes through
the alias table, an attribute access formats its base recursively and
appends ".attr", every other shape is too dynamic and yields none. -/
def formatCalleeExpr (importAliases : List (String × String)) : PyExpr → Option String
  | .name id =>
      match mapLookup importAliases id with
      | some target => some target
      | none => some id
  | .attr value attrName =>
      match formatCalleeExpr importAliases value with
      | some base => some (base ++ "." ++ attrName)
      | none => none
  | _ => none

/-- Mutable state of _CallVisitor: the import-alias table (file-global,
updated in traversal order) and the accumulated call list. -/
structure CallVisitState where
  importAliases : List (String × String)
  calls : List Call
deriving Repr

/-- Caller id of _CallVisitor._current_caller_id: module id at top level,
else the module joined with the context stack. -/
def currentCallerId (module : String) (ctxStack : List String) : String :=
  qualJoin (module :: ctxStack)

/-- Alias updates of _CallVisitor.visit_Import: an aliased import binds
the alias to the full target, a plain import binds the first path segment
to itself. -/
def applyImport (st : CallVisitState) (names : List (String × Option String)) :
    CallVisitState :=
  ⟨names.foldl
      (fun al nm =>
        match nm.2 with
        | some asname => mapInsert al asname nm.1
        | none =>
            let first := firstSegment nm.1
            mapInsert al first first)
      st.importAliases,
    st.calls⟩

/-- Alias updates of _CallVisitor.visit_ImportFrom: the local name (the
alias if given, else the imported name) is bound to module.name, or to the
bare name when the from-module is empty. -/
def applyImportFrom (st : CallVisitState) (moduleName : Option String)
    (names : List (String × Option String)) : CallVisitState :=
  let m := moduleName.getD ""
  ⟨names.foldl
      (fun al nm =>
        let localName := nm.2.getD nm.1
        let target := if m = "" then nm.1 else m ++ "." ++ nm.1
        mapInsert al localName target)
      st.importAliases,
    st.calls⟩

mutual

/-- Expression traversal of _CallVisitor: a call site first records one
Call (formatted and resolved against the index), then generic_visit
continues into the callee expression and the arguments; all other shapes
only traverse their children. -/
def visitCallExpr (module relPath : String) (idx : SymbolIndex)
    (ctx : List String) (st : CallVisitState) : PyExpr → CallVisitState
  | .name _ => st
  | .attr value _ => visitCallExpr module relPath idx ctx st value
  | .call func args lineno col_offset =>
      let raw := (formatCalleeExpr st.importAliases func).getD "<unknown>"
      let callee := resolveCalleeId raw module idx
      let st2 : CallVisitState :=
        ⟨st.importAliases,
          st.calls ++
            [⟨currentCallerId module ctx, ⟨relPath, lineno, col_offset⟩, raw, callee⟩]⟩
      visitCallExprs module relPath idx ctx
        (visitCallExpr module relPath idx ctx st2 func) args
  | .dyn children => visitCallExprs module relPath idx ctx st children

/-- Left-to-right traversal of an expression list, threading the state. -/
def visitCallExprs (module relPath : String) (idx : SymbolIndex)
    (ctx : List String) (st : CallVisitState) : List PyExpr → CallVisitState
  | [] => st
  | e :: rest =>
      visitCallExprs module relPath idx ctx
        (visitCallExpr module relPath idx ctx st e) rest

end

mutual

/-- Statement traversal of _CallVisitor: definitions push their name on
the context stack around their body (and pop it after), imports update the
alias table, and every other statement's expressions and nested statements
are traversed in order. -/
def visitCallStmt (module relPath : String) (idx : SymbolIndex)
    (ctx : List String) (st : CallVisitState) : PyStmt → CallVisitState
  | .functionDef name _ _ _ body =>
      visitCallStmts module relPath idx (ctx ++ [name]) st body
  | .classDef name _ _ body =>
      visitCallStmts module relPath idx (ctx ++ [name]) st body
  | .importS names => applyImport st names
  | .importFromS moduleName names => applyImportFrom st moduleName names
  | .annAssign _ value _ =>
      match value with
      | some e => visitCallExpr module relPath idx ctx st e
      | none => st
  | .exprS e => visitCallExpr module relPath idx ctx st e
  | .otherS exprs body =>
      visitCallStmts module relPath idx ctx
        (visitCallExprs module relPath idx ctx st exprs) body

/-- Left-to-right traversal of a statement list, threading the state. -/
def visitCallStmts (module relPath : String) (idx : SymbolIndex)
    (ctx : List String) (st : CallVisitState) : List PyStmt → CallVisitState
  | [] => st
  | s :: rest =>
      visitCallStmts module relPath idx ctx
        (visitCallStmt module relPath idx ctx st s) rest

end

/-- Definition symbols extracted from one file: the second loop of the
first pass of resolve_project. -/
def fileDefSymbols (f : PyFile) : List Symbol :=
  symbolsFromStmts f.module f.relPath f.sourceLines [] f.tree

/-- Module symbol of one file. -/
def fileModuleSymbol (f : PyFile) : Symbol :=
  makeModuleSymbol f.module f.relPath f.sourceLines

/-- First-pass contribution of one file inside resolve_project: the module
symbol is inserted only when its id is absent, then every extracted
definition symbol is assigned unconditionally (a colliding id is
overwritten). -/
def insertFileSymbols (symbols : List (String × Symbol)) (f : PyFile) :
    List (String × Symbol) :=
  let msym := fileModuleSymbol f
  let symbols2 := mapInsertIfAbsent symbols msym.id msym
  (fileDefSymbols f).foldl (fun m s => mapInsert m s.id s) symbols2

/-- resolve_project: first pass collects symbols over all files, the index
is built once, and a second pass collects the calls of every file in
order, each file starting from a fresh visitor state. -/
def resolveProject (files : List PyFile) : ResolvedProject :=
  let symbols := files.foldl insertFileSymbols []
  let idx := buildSymbolIndex symbols
  let calls :=
    files.foldl
      (fun cs f => cs ++ (visitCallStmts f.module f.relPath idx [] ⟨[], []⟩ f.tree).calls)
      []
  ⟨"", symbols, calls⟩

/-- Specification-side description for the collision behaviour: the
definition symbols of all files, in extraction order. -/
def allDefSymbols : List PyFile → List Symbol
  | [] => []
  | f :: fs => fileDefSymbols f ++ allDefSymbols fs

/-- Specification-side description: the module symbols of all files, in
file order. -/
def allModuleSymbols : List PyFile → List Symbol
  | [] => []
  | f :: fs => fileModuleSymbol f :: allModuleSymbols fs

/-- First-defined choice between two optional values. -/
def orElseOpt {α : Type} (a b : Option α) : Option α :=
  match a with
  | some x => some x
  | none => b

/-- The last symbol carrying the given id in a list, if any. -/
def lastMatch (id : String) : List Symbol → Option Symbol
  | [] => none
  | s :: rest =>
      orElseOpt (lastMatch id rest) (if s.id = id then some s else none)

/-- The first symbol carrying the given id in a list, if any. -/
def firstMatch (id : String) : List Symbol → Option Symbol
  | [] => none
  | s :: rest => if s.id = id then some s else firstMatch id rest

/-- A call's callee id, when set, names a symbol stored in the index
(proof-side predicate for the referential-integrity claim). -/
def calleeResolvable (idx : SymbolIndex) (c : Call) : Prop :=
  ∀ i, c.callee_id = some i → ∃ kv ∈ idx, ∃ s ∈ kv.2, s.id = i

/-- Node granularity of graph.py line 10:
NodeGranularity = Literal["function", "file"]. -/
inductive NodeGranularity where
  | function
  | file
deriving DecidableEq, Repr

/-- Node kind of graph.py line 11: NodeKind = Literal["function", "file"]. -/
inductive NodeKind where
  | function
  | file
deriving DecidableEq, Repr

/-- GraphConfig of graph.py lines 77-97. These three options are all the
dataclass declares; the filtering options the CLI and the test suite pass
(filter_keywords, link_by_filter) do not exist on it. -/
structure GraphConfig where
  node_granularity : NodeGranularity
  cluster_by_module : Bool
  prune_transitive : Bool
deriving DecidableEq, Repr

/-- GraphNode of graph.py. -/
structure GraphNode where
  id : String
  label : String
  kind : NodeKind
  module : Option String
  file : Option String
  symbol_id : Option String
  cluster : Option String
deriving DecidableEq, Repr

/-- GraphEdge of graph.py: aggregated call sites between one src/dst pair. -/
structure GraphEdge where
  src : String
  dst : String
  call_count : Nat
  line_numbers : List Nat
deriving DecidableEq, Repr

/-- GraphEdge.add_call: bump the count and append the line number. -/
def GraphEdge.add_call (e : GraphEdge) (lineno : Nat) : GraphEdge :=
  ⟨e.src, e.dst, e.call_count + 1, e.line_numbers ++ [lineno]⟩

/-- CallGraph of graph.py: nodes keyed by id, edges keyed by (src, dst). -/
structure CallGraph where
  nodes : List (String × GraphNode)
  edges : List ((String × String) × GraphEdge)
deriving DecidableEq, Repr

/-- Cluster key for file granularity: the top-level package segment (text
before the first dot), or the whole module name when it has no dot
(graph.py lines 138-145). -/
def fileClusterKey (module : String) : String :=
  if hasDot module then firstSegment module else module

/-- Step 1 of build_call_graph: create all potential nodes. Under function
granularity one node per function / method symbol, clustered by its module
when clustering is on; under file granularity one node per module symbol,
clustered by its top-level package segment. -/
def initialNodes (project : ResolvedProject) (config : GraphConfig) :
    List (String × GraphNode) :=
  match config.node_granularity with
  | .function =>
      project.symbols.foldl
        (fun nodes kv =>
          let sym := kv.2
          if isFuncLikeKind sym.kind then
            mapInsert nodes sym.id
              ⟨sym.id, sym.name, NodeKind.function, some sym.module, some sym.file,
                some sym.id, if config.cluster_by_module then some sym.module else none⟩
          else nodes)
        []
  | .file =>
      project.symbols.foldl
        (fun nodes kv =>
          let sym := kv.2
          if sym.kind = SymbolKind.module then
            mapInsert nodes sym.id
              ⟨sym.id, sym.module, NodeKind.file, some sym.module, some sym.file,
                some sym.id,
                if config.cluster_by_module then some (fileClusterKey sym.module) else none⟩
          else nodes)
        []

/-- _symbol_to_node_id: map a resolver symbol to a node id at the chosen
granularity (none when the symbol cannot be mapped). -/
def symbolToNodeId (sym : Option Symbol) (config : GraphConfig) : Option String :=
  match sym with
  | none => none
  | some sym =>
      match config.node_granularity with
      | .function => if isFuncLikeKind sym.kind then some sym.id else none
      | .file => if sym.kind = SymbolKind.module then some sym.id else some sym.module

/-- _make_node_for_symbol: the defensive fallback node constructor. -/
def makeNodeForSymbol (sym : Symbol) (config : GraphConfig) : GraphNode :=
  match config.node_granularity with
  | .function =>
      ⟨sym.id, sym.name, NodeKind.function, some sym.module, some sym.file, some sym.id,
        if config.cluster_by_module then some sym.module else none⟩
  | .file =>
      let module := if sym.kind = SymbolKind.module then sym.id else sym.module
      ⟨module, module, NodeKind.file, some module, some sym.file, some sym.id,
        if config.cluster_by_module then some (fileClusterKey module) else none⟩

/-- Callee symbol lookup of step 2 of build_call_graph: the symbol-table
get of the callee id when one is set. -/
def calleeSymbol (project : ResolvedProject) (call : Call) : Option Symbol :=
  match call.callee_id with
  | some i => mapLookup project.symbols i
  | none => none

/-- Step 2 of build_call_graph for one call: map both ends to node ids,
skip the call when either side is unmapped or both map to the same node
(self-loop dropped after mapping), defensively create missing nodes, then
aggregate into the (src, dst) edge. -/
def addCallToGraph (project : ResolvedProject) (config : GraphConfig)
    (acc : List (String × GraphNode) × List ((String × String) × GraphEdge))
    (call : Call) :
    List (String × GraphNode) × List ((String × String) × GraphEdge) :=
  let callerSym := mapLookup project.symbols call.caller_id
  let calleeSym := calleeSymbol project call
  match symbolToNodeId callerSym config, symbolToNodeId calleeSym config with
  | some callerNodeId, some calleeNodeId =>
      if callerNodeId = calleeNodeId then acc
      else
        let nodes :=
          match mapLookup acc.1 callerNodeId, callerSym with
          | none, some s => mapInsert acc.1 callerNodeId (makeNodeForSymbol s config)
          | _, _ => acc.1
        let nodes2 :=
          match mapLookup nodes calleeNodeId, calleeSym with
          | none, some s => mapInsert nodes calleeNodeId (makeNodeForSymbol s config)
          | _, _ => nodes
        let key := (callerNodeId, calleeNodeId)
        let edge := (mapLookup acc.2 key).getD ⟨callerNodeId, calleeNodeId, 0, []⟩
        (nodes2, mapInsert acc.2 key (edge.add_call call.location.lineno))
  | _, _ => acc

/-- Adjacency update: add dst to the neighbour set of src (Python set.add,
so a duplicate neighbour is not appended twice). -/
def adjAdd (adj : List (String × List String)) (u v : String) :
    List (String × List String) :=
  match mapLookup adj u with
  | some vs => if vs.contains v then adj else mapInsert adj u (vs ++ [v])
  | none => mapInsert adj u [v]

/-- Adjacency construction of _prune_transitive_edges: every node id gets
an empty neighbour set, then each edge adds its dst to its src's set. The
Bool result of the breadth-first search below does not depend on the
iteration order of a neighbour set, so a list is a faithful model of the
Python set here. -/
def buildAdjacency (nodes : List (String × GraphNode))
    (edges : List ((String × String) × GraphEdge)) : List (String × List String) :=
  edges.foldl (fun adj kv => adjAdd adj kv.2.src kv.2.dst)
    (nodes.map (fun kv => (kv.1, [])))

/-- Neighbour lookup adj.get(u, ()) of _has_alternate_path. -/
def adjGet (adj : List (String × List String)) (u : String) : List String :=
  (mapLookup adj u).getD []

/-- Inner loop of _has_alternate_path over the neighbours of the dequeued
node u: the skipped edge is ignored, reaching the target ends the search
(none), and an unvisited neighbour is marked visited and queued. -/
def scanNeighbors (target : String) (skipEdge : String × String) (u : String) :
    List String → List String → List String → Option (List String × List String)
  | [], visited, additions => some (visited, additions)
  | w :: ws, visited, additions =>
      if (u, w) = skipEdge then scanNeighbors target skipEdge u ws visited additions
      else if w = target then none
      else if visited.contains w then scanNeighbors target skipEdge u ws visited additions
      else scanNeighbors target skipEdge u ws (visited ++ [w]) (additions ++ [w])

/-- While loop of _has_alternate_path, with explicit fuel. Every iteration
pops one queue element and pushes only vertices not yet visited, so the
Python loop runs at most once per distinct vertex; adjFuel below
over-approximates that bound, making the fuelled loop equal to the
unbounded one. -/
def bfsLoop (adj : List (String × List String)) (target : String)
    (skipEdge : String × String) : Nat → List String → List String → Bool
  | 0, _, _ => false
  | _ + 1, [], _ => false
  | fuel + 1, u :: rest, visited =>
      match scanNeighbors target skipEdge u (adjGet adj u) visited [] with
      | none => true
      | some (visited2, additions) =>
          bfsLoop adj target skipEdge fuel (rest ++ additions) visited2

/-- Fuel bound for the search: one start vertex plus every neighbour list
entry bounds the number of possible enqueues, hence of loop iterations. -/
def adjFuel (adj : List (String × List String)) : Nat :=
  (adj.map (fun kv => kv.2.length)).sum + 1

/-- _has_alternate_path: true when a path from start to target exists that
does not use the edge skipEdge. -/
def hasAlternatePath (adj : List (String × List String)) (start target : String)
    (skipEdge : String × String) : Bool :=
  bfsLoop adj target skipEdge (adjFuel adj) [start] [start]

/-- _prune_transitive_edges: redundant edges are all computed against the
adjacency of the original edge set, then removed as one batch (collecting
a redundant key set and popping each key equals filtering, because every
edge's key is its (src, dst) pair). -/
def pruneTransitiveEdges (nodes : List (String × GraphNode))
    (edges : List ((String × String) × GraphEdge)) :
    List ((String × String) × GraphEdge) :=
  let adj := buildAdjacency nodes edges
  edges.filter (fun kv => !(hasAlternatePath adj kv.2.src kv.2.dst (kv.2.src, kv.2.dst)))

/-- build_call_graph of graph.py: create the nodes, aggregate the calls
into edges, and optionally prune transitive edges. The unsupported
granularity branch (a ValueError) is unreachable here because
NodeGranularity has exactly the two supported values. -/
def buildCallGraph (project : ResolvedProject) (config : GraphConfig) : CallGraph :=
  let nodes := initialNodes project config
  let ne := project.calls.foldl (addCallToGraph project config) (nodes, [])
  if config.prune_transitive then ⟨ne.1, pruneTransitiveEdges ne.1 ne.2⟩
  else ⟨ne.1, ne.2⟩

/-- The edge relation of an edge map: some stored edge runs from u to v
(build_call_graph keys every edge by its (src, dst) pair, so this is the
key relation as well). -/
def isEdge (edges : List ((String × String) × GraphEdge)) (u v : String) : Bool :=
  edges.any (fun kv => kv.2.src = u ∧ kv.2.dst = v)

/-- Reachability in an edge map: the reflexive-transitive closure of the
edge relation. -/
def Reachable (edges : List ((String × String) × GraphEdge)) (u v : String) : Prop :=
  Relation.ReflTransGen (fun a b => isEdge edges a b = true) u v

/-- One step of the alternate-path search: an adjacency step that is not
the skipped edge. -/
def AvoidStep (adj : List (String × List String)) (skipEdge : String × String)
    (u v : String) : Prop :=
  v ∈ adjGet adj u ∧ (u, v) ≠ skipEdge

/-! Concrete analysed projects used as inputs below. Each mirrors a Python
file from the repository's own test suite. -/

/-- The classes.py file of test_add_edge_to_classinit.py: a class with an
explicit dunder init method and a function instantiating the class. -/
def classesFile : PyFile :=
  ⟨["classes"],
    [.classDef "MyClass" 1 3
        [.functionDef "__init__" false 2 3 [.otherS [] []]],
      .functionDef "create_instance" false 5 7
        [.otherS [.call (.name "MyClass") [] 6 10] [],
          .otherS [.name "obj"] []]],
    ["class MyClass:\n", "    def __init__(self):\n", "        self.value = 42\n",
      "\n", "def create_instance():\n", "    obj = MyClass()\n", "    return obj\n"]⟩

/-- The test.py file of test_resolver_attributes.py: a class with three
class-level annotated attribute declarations and one method. -/
def personFile : PyFile :=
  ⟨["test"],
    [.classDef "Person" 2 8
        [.annAssign "name" none 3, .annAssign "age" none 4, .annAssign "city" none 5,
          .functionDef "greet" false 7 8 [.otherS [] []]]],
    ["\n", "class Person:\n", "    name: str\n", "    age: int\n", "    city: str\n",
      "\n", "    def greet(self):\n", "        return 0\n"]⟩

/-- The mod.py file of test_filter_basic_single_keyword in
test_cli_filter.py: three top-level functions, of which only process_data
matches the keyword "process". -/
def filterFile : PyFile :=
  ⟨["mod"],
    [.functionDef "process_data" false 2 3 [.otherS [] []],
      .functionDef "calculate_total" false 5 6 [.otherS [] []],
      .functionDef "show_result" false 8 9 [.otherS [] []]],
    ["\n", "def process_data():\n", "    return 1\n", "\n",
      "def calculate_total():\n", "    return 2\n", "\n",
      "def show_result():\n", "    return 3\n"]⟩

/-- The service.py file of test_methods_clustered_by_class in
test_class_clustering.py: a class with three methods plus a top-level
function. -/
def serviceFile : PyFile :=
  ⟨["service"],
    [.classDef "DataService" 1 9
        [.functionDef "load" false 2 3
            [.otherS [.call (.attr (.name "self") "parse") [] 3 15] []],
          .functionDef "parse" false 5 6 [.otherS [] []],
          .functionDef "save" false 8 9 [.otherS [] []]],
      .functionDef "helper" false 11 13
        [.otherS [.call (.name "DataService") [] 12 10] [],
          .otherS [.call (.attr (.name "svc") "load") [] 13 11] []]],
    ["class DataService:\n", "    def load(self):\n", "        return self.parse()\n",
      "\n", "    def parse(self):\n", "        return 0\n", "\n",
      "    def save(self, data):\n", "        pass\n", "\n",
      "def helper():\n", "    svc = DataService()\n", "    return svc.load()\n"]⟩

/-- A file with two sibling functions calling each other, the input of the
file-granularity collapse check of spec section 8. -/
def siblingFile : PyFile :=
  ⟨["mod"],
    [.functionDef "f" false 1 2 [.exprS (.call (.name "g") [] 2 4)],
      .functionDef "g" false 4 5 [.exprS (.call (.name "f") [] 5 4)]],
    ["def f():\n", "    g()\n", "\n", "def g():\n", "    f()\n"]⟩

/-- A file whose class body performs a call at class level: the caller id
of that call is the class symbol itself. -/
def classBodyCallFile : PyFile :=
  ⟨["m"],
    [.classDef "C" 1 2 [.exprS (.call (.name "f") [] 2 4)]],
    ["class C:\n", "    f()\n"]⟩

/-- A bare graph node used to assemble concrete call graphs directly. -/
def mkNode (i : String) : GraphNode := ⟨i, i, NodeKind.function, none, none, none, none⟩

/-- Nodes of the cyclic pruning counterexample. -/
def c6Nodes : List (String × GraphNode) :=
  [("a", mkNode "a"), ("b", mkNode "b"), ("c", mkNode "c")]

/-- Edges of the cyclic pruning counterexample: a to b, a to c, and a
two-cycle between b and c. Both edges out of a are redundant against the
original edge set, so the batch removal disconnects a from b and c. -/
def c6Edges : List ((String × String) × GraphEdge) :=
  [(("a", "b"), ⟨"a", "b", 1, [1]⟩), (("a", "c"), ⟨"a", "c", 1, [2]⟩),
    (("b", "c"), ⟨"b", "c", 1, [3]⟩), (("c", "b"), ⟨"c", "b", 1, [4]⟩)]

/-- Edges of the acyclic triangle of spec section 8, used as the witness
input for the amended pruning claim. -/
def c6AcyclicEdges : List ((String × String) × GraphEdge) :=
  [(("a", "b"), ⟨"a", "b", 1, [1]⟩), (("b", "c"), ⟨"b", "c", 1, [2]⟩),
    (("a", "c"), ⟨"a", "c", 1, [3]⟩)]

/-- A function f in module m, for the resolution-order counterexample. -/
def symMf : Symbol := ⟨"m.f", .function, "f", "m.f", "m", "m.py", 1, 2, none⟩

/-- A function f in module k, making the short name f ambiguous
project-wide. -/
def symKf : Symbol := ⟨"k.f", .function, "f", "k.f", "k", "k.py", 1, 2, none⟩

/-- Index with entries (m, f) and (k, f): the current module m has a hit
for the short name f, but the global short-name match is ambiguous. -/
def c4Idx : SymbolIndex := [(("m", "f"), [symMf]), (("k", "f"), [symKf])]

/-! Theorems. -/

/-- C1: the claim says GraphConfig accepts filter_keywords and
link_by_filter and that build_call_graph filters nodes by keyword. The
GraphConfig of src/pycodemap/graph.py has only node_granularity,
cluster_by_module and prune_transitive, and build_call_graph has no
filtering pass: on the project of test_filter_basic_single_keyword, every
configuration value keeps all three function nodes, including the two that
match no keyword (the repository's own cli.py and test_cli_filter.py
require the filtering behaviour, so the code contradicts its tests). -/
theorem c1_no_filtering_in_build_call_graph :
    ∀ (cb pt : Bool),
      (buildCallGraph (resolveProject [filterFile])
          ⟨NodeGranularity.function, cb, pt⟩).nodes.map Prod.fst =
        ["mod.process_data", "mod.calculate_total", "mod.show_result"] := by
  intro cb pt
  cases cb <;> cases pt <;> rfl

/-- C2: the claim says resolve_project synthesizes one attribute-group
symbol per class with class-level annotated attributes. The extractor of
src/pycodemap/resolver.py has no annotated-assignment handling and its
SymbolKind has no attribute kind: on the Person class of
test_resolver_attributes.py (three annotated attributes), the symbol table
holds exactly the module, the class and the method, and no symbol keyed by
the marker id test.Person.<attributes> (the repository's own tests require
that symbol, so the code contradicts its tests). -/
theorem c2_no_attribute_group_symbol :
    (resolveProject [personFile]).symbols.map Prod.fst =
        ["test", "test.Person", "test.Person.greet"] ∧
      mapLookup (resolveProject [personFile]).symbols "test.Person.<attributes>" = none := by
  exact ⟨by rfl, by rfl⟩

/-- C3: the claim says instantiating a class additionally records a second
synthetic call to the class's dunder-init method. The visit_Call of
src/pycodemap/resolver.py appends exactly one Call per call expression and
never synthesizes another: on the classes.py project of
test_add_edge_to_classinit.py, the init method symbol exists, yet the call
list holds exactly the one class-reference call (the repository's own
tests require the second call, so the code contradicts its tests). -/
theorem c3_no_synthetic_init_call :
    (resolveProject [classesFile]).calls =
        [⟨"classes.create_instance", ⟨"classes.py", 6, 10⟩, "MyClass",
          some "classes.MyClass"⟩] ∧
      (mapLookup (resolveProject [classesFile]).symbols
          "classes.MyClass.__init__").isSome = true := by
  exact ⟨by rfl, by rfl⟩

/-- C5: the claim says a method's node clusters under its innermost
enclosing class. build_call_graph of src/pycodemap/graph.py sets every
function-granularity cluster to the symbol's module: on the service.py
project of test_methods_clustered_by_class, the node of the method load is
clustered under the module service, not under the class qualname
service.DataService the repository's own test asserts. -/
theorem c5_method_clustered_by_module_not_class :
    (mapLookup (buildCallGraph (resolveProject [serviceFile])
          ⟨NodeGranularity.function, true, false⟩).nodes
        "service.DataService.load").map GraphNode.cluster = some (some "service") := by
  rfl

/-- C4, counterexample: for the dotted callee x.f with no (x, f) index
entry, the claim predicts a lookup of (current module, f) next, which hits
(m, f) and resolves to m.f; the code instead skips the current-module
lookup for dotted strings and falls through to the project-wide short-name
match, which is ambiguous here, so resolution yields none. -/
theorem c4_counterexample :
    mapLookup c4Idx ("m", "f") = some [symMf] ∧
      resolveCalleeId "x.f" "m" c4Idx = none := by
  exact ⟨by rfl, by rfl⟩

/-- C4, amended: for a dotted callee string the (current module, name)
lookup is never consulted — resolution does not depend on the current
module at all — and on a direct-lookup miss (a missing key or an empty
candidate list) resolution proceeds straight to the project-wide
unique-short-name fallback on the last segment. -/
theorem c4_dotted_resolution_skips_current_module
    (raw cur cur2 : String) (idx : SymbolIndex) (m name : String)
    (hsplit : rsplitDot raw = some (m, name)) :
    resolveCalleeId raw cur idx = resolveCalleeId raw cur2 idx ∧
      ((mapLookup idx (m, name)).getD [] = [] →
        resolveCalleeId raw cur idx = globalNameMatch name idx) := by
  by_cases hu : raw = "<unknown>"
  · subst hu
    have hnone : rsplitDot "<unknown>" = none := by rfl
    rw [hnone] at hsplit
    cases hsplit
  · constructor
    · simp only [resolveCalleeId, if_neg hu, hsplit]
    · intro hmiss
      simp only [resolveCalleeId, if_neg hu, hsplit]
      cases hlk : mapLookup idx (m, name) with
      | none => rfl
      | some cands =>
          cases cands with
          | nil => rfl
          | cons c cs =>
              rw [hlk] at hmiss
              simp at hmiss

/-- C4, witness: at the concrete ambiguous index, the dotted resolution of
x.f ignores the current module and equals the global fallback. -/
theorem c4_dotted_resolution_witness :
    resolveCalleeId "x.f" "m" c4Idx = resolveCalleeId "x.f" "zz" c4Idx ∧
      resolveCalleeId "x.f" "m" c4Idx = globalNameMatch "f" c4Idx := by
  exact ⟨(c4_dotted_resolution_skips_current_module "x.f" "m" "zz" c4Idx "x" "f" (by rfl)).1,
    (c4_dotted_resolution_skips_current_module "x.f" "m" "zz" c4Idx "x" "f" (by rfl)).2 (by rfl)⟩

/-- C9: a call expression whose target is neither a bare name nor an
attribute chain (formatCalleeExpr yields none) records exactly one Call
carrying the sentinel raw callee and no callee id, and traversal then
continues into the callee expression and arguments, so subsequent calls
are processed normally; the visitor is a total function, so no error is
raised. -/
theorem c9_unresolvable_call_records_one_sentinel
    (module relPath : String) (idx : SymbolIndex) (ctx : List String)
    (st : CallVisitState) (func : PyExpr) (args : List PyExpr) (lineno col : Nat)
    (h : formatCalleeExpr st.importAliases func = none) :
    visitCallExpr module relPath idx ctx st (.call func args lineno col) =
      visitCallExprs module relPath idx ctx
        (visitCallExpr module relPath idx ctx
          ⟨st.importAliases,
            st.calls ++
              [⟨currentCallerId module ctx, ⟨relPath, lineno, col⟩, "<unknown>", none⟩]⟩
          func)
        args := by
  simp only [visitCallExpr, h, Option.getD]
  rfl

/-- Lookup after assignment: the assigned key yields the new value, every
other key is unaffected. -/
theorem mapLookup_insert {κ β : Type} [DecidableEq κ] (m : List (κ × β)) (k key : κ)
    (v : β) :
    mapLookup (mapInsert m k v) key = if k = key then some v else mapLookup m key := by
  induction m with
  | nil => simp [mapInsert, mapLookup]
  | cons kv rest ih =>
      obtain ⟨k1, w⟩ := kv
      by_cases h1 : k1 = k
      · subst h1
        by_cases h2 : k1 = key
        · simp [mapInsert, mapLookup, h2]
        · simp [mapInsert, mapLookup, h2]
      · by_cases h2 : k1 = key
        · subst h2
          have h3 : ¬ k = k1 := fun hx => h1 hx.symm
          simp [mapInsert, mapLookup, h1, h3]
        · simp [mapInsert, mapLookup, h1, h2, ih]

/-- A successful lookup exhibits a member of the association list. -/
theorem mapLookup_mem {κ β : Type} [DecidableEq κ] {m : List (κ × β)} {k : κ} {v : β}
    (h : mapLookup m k = some v) : (k, v) ∈ m := by
  induction m with
  | nil => simp [mapLookup] at h
  | cons kv rest ih =>
      obtain ⟨k1, w⟩ := kv
      by_cases h1 : k1 = k
      · subst h1
        simp only [mapLookup, if_pos rfl] at h
        cases h
        exact List.mem_cons_self _ _
      · simp only [mapLookup, if_neg h1] at h
        exact List.mem_cons_of_mem _ (ih h)

/-- A member key always has a successful lookup. -/
theorem mem_mapLookup_isSome {κ β : Type} [DecidableEq κ] {m : List (κ × β)} {k : κ}
    {v : β} (h : (k, v) ∈ m) : (mapLookup m k).isSome = true := by
  induction m with
  | nil => simp at h
  | cons kv rest ih =>
      obtain ⟨k1, w⟩ := kv
      rcases List.mem_cons.mp h with h1 | h1
      · cases h1
        simp [mapLookup]
      · by_cases h2 : k1 = k
        · simp [mapLookup, h2]
        · simp only [mapLookup, if_neg h2]
          exact ih h1

/-- Members after an assignment come from the old list or are the new
binding. -/
theorem mapInsert_mem {κ β : Type} [DecidableEq κ] {m : List (κ × β)} {k : κ} {v : β}
    {kv : κ × β} (h : kv ∈ mapInsert m k v) : kv ∈ m ∨ kv = (k, v) := by
  induction m with
  | nil => simpa [mapInsert] using h
  | cons kw rest ih =>
      obtain ⟨k1, w⟩ := kw
      by_cases h1 : k1 = k
      · subst h1
        simp only [mapInsert, if_pos rfl] at h
        rcases List.mem_cons.mp h with h2 | h2
        · exact Or.inr h2
        · exact Or.inl (List.mem_cons_of_mem _ h2)
      · simp only [mapInsert, if_neg h1] at h
        rcases List.mem_cons.mp h with h2 | h2
        · exact Or.inl (h2 ▸ List.mem_cons_self _ _)
        · rcases ih h2 with h3 | h3
          · exact Or.inl (List.mem_cons_of_mem _ h3)
          · exact Or.inr h3

/-- Members after a guarded insertion come from the old list or are the
new binding. -/
theorem mapInsertIfAbsent_mem {κ β : Type} [DecidableEq κ] {m : List (κ × β)} {k : κ}
    {v : β} {kv : κ × β} (h : kv ∈ mapInsertIfAbsent m k v) : kv ∈ m ∨ kv = (k, v) := by
  unfold mapInsertIfAbsent at h
  cases hlk : mapLookup m k with
  | some w => rw [hlk] at h; exact Or.inl h
  | none => rw [hlk] at h; exact mapInsert_mem h

/-- Keys after an assignment come from the old keys or are the assigned
key. -/
theorem mapInsert_key_mem {κ β : Type} [DecidableEq κ] {m : List (κ × β)} {k : κ}
    {v : β} {key : κ} (h : key ∈ (mapInsert m k v).map Prod.fst) :
    key ∈ m.map Prod.fst ∨ key = k := by
  rcases List.mem_map.mp h with ⟨kv, hmem, hfst⟩
  rcases mapInsert_mem hmem with h1 | h1
  · exact Or.inl (hfst ▸ List.mem_map_of_mem Prod.fst h1)
  · subst h1
    exact Or.inr hfst.symm

/-- Assignment preserves distinctness of the keys. -/
theorem mapInsert_keys_nodup {κ β : Type} [DecidableEq κ] {m : List (κ × β)} (k : κ)
    (v : β) (h : (m.map Prod.fst).Nodup) : ((mapInsert m k v).map Prod.fst).Nodup := by
  induction m with
  | nil => simp [mapInsert]
  | cons kw rest ih =>
      obtain ⟨k1, w⟩ := kw
      simp only [List.map_cons, List.nodup_cons] at h
      by_cases h1 : k1 = k
      · subst h1
        have hrw : mapInsert ((k1, w) :: rest) k1 v = (k1, v) :: rest := by
          simp [mapInsert]
        rw [hrw]
        simp only [List.map_cons, List.nodup_cons]
        exact h
      · simp only [mapInsert, if_neg h1, List.map_cons, List.nodup_cons]
        refine ⟨fun hk => ?_, ih h.2⟩
        rcases mapInsert_key_mem hk with h2 | h2
        · exact h.1 h2
        · exact h1 h2

/-- Guarded insertion preserves distinctness of the keys. -/
theorem mapInsertIfAbsent_keys_nodup {κ β : Type} [DecidableEq κ] {m : List (κ × β)}
    (k : κ) (v : β) (h : (m.map Prod.fst).Nodup) :
    ((mapInsertIfAbsent m k v).map Prod.fst).Nodup := by
  unfold mapInsertIfAbsent
  cases mapLookup m k with
  | some w => exact h
  | none => exact mapInsert_keys_nodup k v h

/-- Assignment preserves key presence. -/
theorem mapLookup_isSome_of_insert {κ β : Type} [DecidableEq κ] {m : List (κ × β)}
    {key : κ} (k : κ) (v : β) (h : (mapLookup m key).isSome = true) :
    (mapLookup (mapInsert m k v) key).isSome = true := by
  rw [mapLookup_insert]
  by_cases h1 : k = key
  · simp [h1]
  · simpa [h1] using h

/-- Guarded insertion preserves key presence. -/
theorem mapLookup_isSome_of_insertIfAbsent {κ β : Type} [DecidableEq κ]
    {m : List (κ × β)} {key : κ} (k : κ) (v : β)
    (h : (mapLookup m key).isSome = true) :
    (mapLookup (mapInsertIfAbsent m k v) key).isSome = true := by
  unfold mapInsertIfAbsent
  cases mapLookup m k with
  | some w => exact h
  | none => exact mapLookup_isSome_of_insert k v h

/-- Any value stored by addCallToGraph keeps distinct endpoints: a fresh
edge is created only after the self-loop test, and an updated edge keeps
its endpoints. -/
theorem addCallToGraph_edges_ok (project : ResolvedProject) (config : GraphConfig)
    (acc : List (String × GraphNode) × List ((String × String) × GraphEdge))
    (call : Call)
    (h : ∀ kv ∈ acc.2, kv.2.src ≠ kv.2.dst) :
    ∀ kv ∈ (addCallToGraph project config acc call).2, kv.2.src ≠ kv.2.dst := by
  intro kv hkv
  simp only [addCallToGraph] at hkv
  split at hkv
  case h_2 => exact h kv hkv
  case h_1 callerNodeId calleeNodeId hcn hen =>
    by_cases heq : callerNodeId = calleeNodeId
    · rw [if_pos heq] at hkv
      exact h kv hkv
    · rw [if_neg heq] at hkv
      simp only at hkv
      rcases mapInsert_mem hkv with h1 | h1
      · exact h kv h1
      · subst h1
        cases hlk : mapLookup acc.2 (callerNodeId, calleeNodeId) with
        | some e =>
            have he := h _ (mapLookup_mem hlk)
            simpa [hlk, GraphEdge.add_call] using he
        | none => simpa [hlk, GraphEdge.add_call] using heq

/-- The edge fold of build_call_graph keeps distinct endpoints. -/
theorem foldCalls_edges_ok (project : ResolvedProject) (config : GraphConfig)
    (calls : List Call)
    (acc : List (String × GraphNode) × List ((String × String) × GraphEdge))
    (h : ∀ kv ∈ acc.2, kv.2.src ≠ kv.2.dst) :
    ∀ kv ∈ (calls.foldl (addCallToGraph project config) acc).2,
      kv.2.src ≠ kv.2.dst := by
  induction calls generalizing acc with
  | nil => exact h
  | cons c rest ih =>
      exact ih (addCallToGraph project config acc c)
        (addCallToGraph_edges_ok project config acc c h)

/-- C8: no call graph built by build_call_graph has a self-loop edge, under
either granularity, because caller and callee are compared after mapping
to node ids and equal ids are skipped before edge creation; in particular
two sibling functions calling each other in one file produce zero edges at
file granularity. -/
theorem c8_no_self_loops :
    (∀ (project : ResolvedProject) (config : GraphConfig)
        (kv : (String × String) × GraphEdge),
        kv ∈ (buildCallGraph project config).edges → kv.2.src ≠ kv.2.dst) ∧
      (buildCallGraph (resolveProject [siblingFile])
          ⟨NodeGranularity.file, true, false⟩).edges = [] := by
  constructor
  · intro project config kv hkv
    have hbase : ∀ kv2 ∈ (project.calls.foldl (addCallToGraph project config)
        (initialNodes project config, [])).2, kv2.2.src ≠ kv2.2.dst := by
      apply foldCalls_edges_ok
      intro kv2 hkv2
      simp at hkv2
    unfold buildCallGraph at hkv
    by_cases hp : config.prune_transitive
    · rw [if_pos hp] at hkv
      simp only [pruneTransitiveEdges] at hkv
      exact hbase kv (List.mem_of_mem_filter hkv)
    · rw [if_neg hp] at hkv
      exact hbase kv hkv
  · rfl

/-- C8, witness: in the function-granularity graph of the sibling file the
mutual-call edge from f to g has distinct endpoints. -/
theorem c8_no_self_loops_witness : ("mod.f", "mod.g").1 ≠ ("mod.f", "mod.g").2 := by
  exact c8_no_self_loops.1 (resolveProject [siblingFile])
    ⟨NodeGranularity.function, true, false⟩
    (("mod.f", "mod.g"), ⟨"mod.f", "mod.g", 1, [2]⟩) (by decide)

/-- C9, witness: the sentinel recording at a concrete dynamic call target
(a call of a subscript-like dynamic expression with no arguments). -/
theorem c9_unresolvable_call_witness :
    visitCallExpr "m" "m.py" [] [] ⟨[], []⟩ (.call (.dyn []) [] 3 1) =
      visitCallExprs "m" "m.py" [] []
        (visitCallExpr "m" "m.py" [] []
          ⟨[], [⟨currentCallerId "m" [], ⟨"m.py", 3, 1⟩, "<unknown>", none⟩]⟩
          (.dyn []))
        [] := by
  exact c9_unresolvable_call_records_one_sentinel "m" "m.py" [] [] ⟨[], []⟩ (.dyn []) [] 3 1
    (by rfl)

/-- Choice after some. -/
theorem orElseOpt_some {α : Type} (x : α) (b : Option α) :
    orElseOpt (some x) b = some x := rfl

/-- Choice after none. -/
theorem orElseOpt_none {α : Type} (b : Option α) : orElseOpt none b = b := rfl

/-- Choice with a none fallback. -/
theorem orElseOpt_none_right {α : Type} (a : Option α) : orElseOpt a none = a := by
  cases a <;> rfl

/-- Choice is associative. -/
theorem orElseOpt_assoc {α : Type} (a b c : Option α) :
    orElseOpt (orElseOpt a b) c = orElseOpt a (orElseOpt b c) := by
  cases a <;> rfl

/-- A guarded positive value distributes over the choice. -/
theorem orElseOpt_ite {α : Type} (c : Prop) [Decidable c] (x : α) (b : Option α) :
    orElseOpt (if c then some x else none) b = if c then some x else b := by
  by_cases h : c
  · simp [h, orElseOpt]
  · simp [h, orElseOpt]

/-- Lookup after an assignment, phrased as a choice. -/
theorem mapLookup_insert_orElse {κ β : Type} [DecidableEq κ] (m : List (κ × β))
    (k : κ) (v : β) (id : κ) :
    mapLookup (mapInsert m k v) id =
      orElseOpt (if k = id then some v else none) (mapLookup m id) := by
  rw [mapLookup_insert, orElseOpt_ite]

/-- Lookup after an overwrite fold: the last occurrence of the id among
the folded symbols wins, otherwise the original lookup stands. -/
theorem mapLookup_foldl_insert (ds : List Symbol) (m : List (String × Symbol))
    (id : String) :
    mapLookup (ds.foldl (fun acc s => mapInsert acc s.id s) m) id =
      orElseOpt (lastMatch id ds) (mapLookup m id) := by
  induction ds generalizing m with
  | nil => rfl
  | cons s ds ih =>
      simp only [List.foldl_cons, lastMatch]
      rw [ih, mapLookup_insert_orElse]
      simp only [orElseOpt_none, orElseOpt_none_right, orElseOpt_assoc]

/-- Lookup after a guarded insertion: an existing binding wins, otherwise
the new binding answers only for its own key. -/
theorem mapLookup_insertIfAbsent {κ β : Type} [DecidableEq κ] (m : List (κ × β))
    (k : κ) (v : β) (id : κ) :
    mapLookup (mapInsertIfAbsent m k v) id =
      orElseOpt (mapLookup m id) (if k = id then some v else none) := by
  unfold mapInsertIfAbsent
  cases hk : mapLookup m k with
  | some w =>
      cases hid : mapLookup m id with
      | some w2 => simp [hid, orElseOpt]
      | none =>
          have h : ¬ k = id := by
            intro he
            subst he
            rw [hk] at hid
            cases hid
          simp [hid, h, orElseOpt]
  | none =>
      rw [mapLookup_insert_orElse]
      cases hid : mapLookup m id with
      | some w2 =>
          have h : ¬ k = id := by
            intro he
            subst he
            rw [hk] at hid
            cases hid
          simp [hid, h, orElseOpt]
      | none => rw [orElseOpt_none_right, orElseOpt_none]

/-- The last match of an appended list prefers the second list. -/
theorem lastMatch_append (id : String) (l1 l2 : List Symbol) :
    lastMatch id (l1 ++ l2) =
      orElseOpt (lastMatch id l2) (lastMatch id l1) := by
  induction l1 with
  | nil =>
      simp only [List.nil_append, lastMatch, orElseOpt_none_right]
  | cons s l1 ih =>
      have hstep : lastMatch id ((s :: l1) ++ l2) =
          orElseOpt (lastMatch id (l1 ++ l2)) (if s.id = id then some s else none) := rfl
      rw [hstep, ih, orElseOpt_assoc]
      rfl

/-- Lookup after one file's first-pass contribution: the file's last
colliding definition symbol wins, then an existing binding, then the
file's module symbol. -/
theorem mapLookup_insertFileSymbols (m : List (String × Symbol)) (f : PyFile)
    (id : String) :
    mapLookup (insertFileSymbols m f) id =
      orElseOpt (lastMatch id (fileDefSymbols f))
        (orElseOpt (mapLookup m id)
          (if (fileModuleSymbol f).id = id then some (fileModuleSymbol f) else none)) := by
  unfold insertFileSymbols
  rw [mapLookup_foldl_insert, mapLookup_insertIfAbsent]

/-- Lookup after the whole first pass over a file list. -/
theorem mapLookup_resolve_fold (files : List PyFile) (m : List (String × Symbol))
    (id : String) :
    mapLookup (files.foldl insertFileSymbols m) id =
      orElseOpt (lastMatch id (allDefSymbols files))
        (orElseOpt (mapLookup m id) (firstMatch id (allModuleSymbols files))) := by
  induction files generalizing m with
  | nil =>
      simp only [List.foldl_nil, allDefSymbols, allModuleSymbols, lastMatch, firstMatch,
        orElseOpt_none, orElseOpt_none_right]
  | cons f fs ih =>
      simp only [List.foldl_cons, allDefSymbols, allModuleSymbols]
      rw [ih, mapLookup_insertFileSymbols, lastMatch_append]
      simp only [firstMatch]
      by_cases hmod : (fileModuleSymbol f).id = id
      · simp [hmod, orElseOpt_some, orElseOpt_none, orElseOpt_none_right, orElseOpt_assoc]
      · simp [hmod, orElseOpt_some, orElseOpt_none, orElseOpt_none_right, orElseOpt_assoc]

/-- The overwrite fold keeps the keys distinct. -/
theorem foldl_insert_keys_nodup (ds : List Symbol) (m : List (String × Symbol))
    (h : (m.map Prod.fst).Nodup) :
    (((ds.foldl (fun acc s => mapInsert acc s.id s) m)).map Prod.fst).Nodup := by
  induction ds generalizing m with
  | nil => exact h
  | cons s ds ih => exact ih _ (mapInsert_keys_nodup _ _ h)

/-- The whole first pass keeps the keys distinct. -/
theorem resolve_fold_keys_nodup (files : List PyFile) (m : List (String × Symbol))
    (h : (m.map Prod.fst).Nodup) :
    ((files.foldl insertFileSymbols m).map Prod.fst).Nodup := by
  induction files generalizing m with
  | nil => exact h
  | cons f fs ih =>
      refine ih _ ?_
      unfold insertFileSymbols
      exact foldl_insert_keys_nodup _ _ (mapInsertIfAbsent_keys_nodup _ _ h)

/-- C10: the symbol table of resolve_project never holds two entries for
one id, and a colliding id resolves to the definition symbol extracted
last (unconditional assignment), falling back to the first module symbol
with that id only when no definition symbol carries it (module symbols are
inserted only when their id is absent and therefore never displace an
existing entry); any earlier colliding definition is silently lost. -/
theorem c10_duplicate_ids_last_definition_wins (files : List PyFile) (id : String) :
    ((resolveProject files).symbols.map Prod.fst).Nodup ∧
      mapLookup (resolveProject files).symbols id =
        orElseOpt (lastMatch id (allDefSymbols files))
          (firstMatch id (allModuleSymbols files)) := by
  constructor
  · exact resolve_fold_keys_nodup files [] (by simp)
  · have h := mapLookup_resolve_fold files [] id
    have hsym : (resolveProject files).symbols = files.foldl insertFileSymbols [] := rfl
    rw [hsym, h]
    rfl

/-- The tie-break picks a member of the candidate list. -/
theorem pickBestSymbol_mem (c : Symbol) (cs : List Symbol) :
    pickBestSymbol c cs ∈ c :: cs := by
  unfold pickBestSymbol
  cases hf : (c :: cs).filter (fun s => isFuncLikeKind s.kind) with
  | nil => exact List.mem_cons_self _ _
  | cons f fs =>
      have hm : f ∈ (c :: cs).filter (fun s => isFuncLikeKind s.kind) := by
        rw [hf]
        exact List.mem_cons_self _ _
      exact List.mem_of_mem_filter hm

/-- Members of the global-scan accumulator come from the start value or
from some candidate list of the index. -/
theorem globalFold_mem (name : String) (idx : SymbolIndex) :
    ∀ (acc : List Symbol) (x : Symbol),
      x ∈ idx.foldl (fun acc kv => if kv.1.2 = name then acc ++ kv.2 else acc) acc →
      x ∈ acc ∨ ∃ kv ∈ idx, x ∈ kv.2 := by
  induction idx with
  | nil =>
      intro acc x hx
      exact Or.inl hx
  | cons kv rest ih =>
      intro acc x hx
      simp only [List.foldl_cons] at hx
      rcases ih _ x hx with h1 | h1
      · by_cases h2 : kv.1.2 = name
        · rw [if_pos h2] at h1
          rcases List.mem_append.mp h1 with h3 | h3
          · exact Or.inl h3
          · exact Or.inr ⟨kv, List.mem_cons_self _ _, h3⟩
        · rw [if_neg h2] at h1
          exact Or.inl h1
      · obtain ⟨kv2, hkv2, hx2⟩ := h1
        exact Or.inr ⟨kv2, List.mem_cons_of_mem _ hkv2, hx2⟩

/-- A successful global name match names a symbol of the index. -/
theorem globalNameMatch_mem (name : String) (idx : SymbolIndex) (i : String)
    (h : globalNameMatch name idx = some i) :
    ∃ kv ∈ idx, ∃ s ∈ kv.2, s.id = i := by
  unfold globalNameMatch at h
  cases hg : idx.foldl (fun acc kv => if kv.1.2 = name then acc ++ kv.2 else acc) [] with
  | nil =>
      rw [hg] at h
      simp at h
  | cons s rest =>
      cases rest with
      | nil =>
          rw [hg] at h
          simp at h
          have hs : s ∈ idx.foldl
              (fun acc kv => if kv.1.2 = name then acc ++ kv.2 else acc) [] := by
            rw [hg]
            exact List.mem_cons_self _ _
          rcases globalFold_mem name idx [] s hs with h1 | h1
          · simp at h1
          · obtain ⟨kv, hkv, hskv⟩ := h1
            exact ⟨kv, hkv, s, hskv, h⟩
      | cons t rest2 =>
          rw [hg] at h
          simp at h

/-- A successful resolution names a symbol of the index. -/
theorem resolveCalleeId_mem (raw cur : String) (idx : SymbolIndex) (i : String)
    (h : resolveCalleeId raw cur idx = some i) :
    ∃ kv ∈ idx, ∃ s ∈ kv.2, s.id = i := by
  unfold resolveCalleeId at h
  split at h
  · cases h
  · split at h
    next m name hsplit =>
      split at h
      next c cs hlk =>
        injection h with h2
        exact ⟨((m, name), c :: cs), mapLookup_mem hlk, pickBestSymbol c cs,
          pickBestSymbol_mem c cs, h2⟩
      next => exact globalNameMatch_mem name idx i h
    next =>
      split at h
      next c cs hlk =>
        injection h with h2
        exact ⟨((cur, raw), c :: cs), mapLookup_mem hlk, pickBestSymbol c cs,
          pickBestSymbol_mem c cs, h2⟩
      next => exact globalNameMatch_mem raw idx i h

mutual

/-- Every symbol extracted from a statement is a function, method or class
symbol. -/
theorem symbolsFromStmt_kinds (module relPath : String) (lines : List String) :
    (s : PyStmt) → ∀ (stack : List String) (sym : Symbol),
      sym ∈ symbolsFromStmt module relPath lines stack s →
      isCallTargetKind sym.kind = true
  | .functionDef name isAsync lineno end_lineno body => by
      intro stack sym hmem
      simp only [symbolsFromStmt] at hmem
      rcases List.mem_cons.mp hmem with h1 | h1
      · subst h1
        by_cases hs : stack.isEmpty
        · simp [mkDefSymbol, hs, isCallTargetKind]
        · simp [mkDefSymbol, hs, isCallTargetKind]
      · exact symbolsFromStmts_kinds module relPath lines body (stack ++ [name]) sym h1
  | .classDef name lineno end_lineno body => by
      intro stack sym hmem
      simp only [symbolsFromStmt] at hmem
      rcases List.mem_cons.mp hmem with h1 | h1
      · subst h1
        simp [mkDefSymbol, isCallTargetKind]
      · exact symbolsFromStmts_kinds module relPath lines body (stack ++ [name]) sym h1
  | .importS names => by
      intro stack sym hmem
      simp [symbolsFromStmt] at hmem
  | .importFromS moduleName names => by
      intro stack sym hmem
      simp [symbolsFromStmt] at hmem
  | .annAssign target value lineno => by
      intro stack sym hmem
      simp [symbolsFromStmt] at hmem
  | .exprS e => by
      intro stack sym hmem
      simp [symbolsFromStmt] at hmem
  | .otherS exprs body => by
      intro stack sym hmem
      simp only [symbolsFromStmt] at hmem
      exact symbolsFromStmts_kinds module relPath lines body stack sym hmem

/-- Every symbol extracted from a statement list is a function, method or
class symbol. -/
theorem symbolsFromStmts_kinds (module relPath : String) (lines : List String) :
    (ss : List PyStmt) → ∀ (stack : List String) (sym : Symbol),
      sym ∈ symbolsFromStmts module relPath lines stack ss →
      isCallTargetKind sym.kind = true
  | [] => by
      intro stack sym hmem
      simp [symbolsFromStmts] at hmem
  | s :: rest => by
      intro stack sym hmem
      simp only [symbolsFromStmts] at hmem
      rcases List.mem_append.mp hmem with h1 | h1
      · exact symbolsFromStmt_kinds module relPath lines s stack sym h1
      · exact symbolsFromStmts_kinds module relPath lines rest stack sym h1

end

mutual

/-- Every call recorded while visiting an expression either was already in
the state or carries the current caller id and a resolvable callee. -/
theorem visitCallExpr_calls_ok (module relPath : String) (idx : SymbolIndex) :
    (e : PyExpr) → ∀ (ctx : List String) (st : CallVisitState) (c : Call),
      c ∈ (visitCallExpr module relPath idx ctx st e).calls →
      c ∈ st.calls ∨ (c.caller_id = currentCallerId module ctx ∧ calleeResolvable idx c)
  | .name id => by
      intro ctx st c hc
      simp only [visitCallExpr] at hc
      exact Or.inl hc
  | .attr value attrName => by
      intro ctx st c hc
      simp only [visitCallExpr] at hc
      exact visitCallExpr_calls_ok module relPath idx value ctx st c hc
  | .call func args lineno col_offset => by
      intro ctx st c hc
      simp only [visitCallExpr] at hc
      rcases visitCallExprs_calls_ok module relPath idx args ctx _ c hc with h1 | h1
      · rcases visitCallExpr_calls_ok module relPath idx func ctx _ c h1 with h2 | h2
        · simp only [List.mem_append, List.mem_singleton] at h2
          rcases h2 with h3 | h3
          · exact Or.inl h3
          · subst h3
            refine Or.inr ⟨rfl, ?_⟩
            intro i hi
            simp only at hi
            exact resolveCalleeId_mem _ module idx i hi
        · exact Or.inr h2
      · exact Or.inr h1
  | .dyn children => by
      intro ctx st c hc
      simp only [visitCallExpr] at hc
      exact visitCallExprs_calls_ok module relPath idx children ctx st c hc

/-- List version of the expression traversal property. -/
theorem visitCallExprs_calls_ok (module relPath : String) (idx : SymbolIndex) :
    (es : List PyExpr) → ∀ (ctx : List String) (st : CallVisitState) (c : Call),
      c ∈ (visitCallExprs module relPath idx ctx st es).calls →
      c ∈ st.calls ∨ (c.caller_id = currentCallerId module ctx ∧ calleeResolvable idx c)
  | [] => by
      intro ctx st c hc
      simp only [visitCallExprs] at hc
      exact Or.inl hc
  | e :: rest => by
      intro ctx st c hc
      simp only [visitCallExprs] at hc
      rcases visitCallExprs_calls_ok module relPath idx rest ctx _ c hc with h1 | h1
      · exact visitCallExpr_calls_ok module relPath idx e ctx st c h1
      · exact Or.inr h1

end

mutual

/-- Every call recorded while visiting a statement either was already in
the state, or carries the current caller id or the id of a symbol the
extractor emits for this statement, and a resolvable callee. -/
theorem visitCallStmt_calls_ok (module relPath : String) (idx : SymbolIndex)
    (lines : List String) :
    (s : PyStmt) → ∀ (ctx : List String) (st : CallVisitState) (c : Call),
      c ∈ (visitCallStmt module relPath idx ctx st s).calls →
      c ∈ st.calls ∨
        ((c.caller_id = currentCallerId module ctx ∨
            ∃ sym ∈ symbolsFromStmt module relPath lines ctx s, c.caller_id = sym.id) ∧
          calleeResolvable idx c)
  | .functionDef name isAsync lineno end_lineno body => by
      intro ctx st c hc
      simp only [visitCallStmt] at hc
      rcases visitCallStmts_calls_ok module relPath idx lines body (ctx ++ [name]) st c hc
        with h1 | h1
      · exact Or.inl h1
      · obtain ⟨hcaller, hres⟩ := h1
        refine Or.inr ⟨Or.inr ?_, hres⟩
        rcases hcaller with h2 | h2
        · refine ⟨mkDefSymbol module relPath lines ctx
              (if ctx.isEmpty then SymbolKind.function else SymbolKind.method)
              name lineno end_lineno, ?_, ?_⟩
          · simp [symbolsFromStmt]
          · rw [h2]
            rfl
        · obtain ⟨sym, hmem, hid⟩ := h2
          exact ⟨sym, by simp only [symbolsFromStmt]; exact List.mem_cons_of_mem _ hmem, hid⟩
  | .classDef name lineno end_lineno body => by
      intro ctx st c hc
      simp only [visitCallStmt] at hc
      rcases visitCallStmts_calls_ok module relPath idx lines body (ctx ++ [name]) st c hc
        with h1 | h1
      · exact Or.inl h1
      · obtain ⟨hcaller, hres⟩ := h1
        refine Or.inr ⟨Or.inr ?_, hres⟩
        rcases hcaller with h2 | h2
        · refine ⟨mkDefSymbol module relPath lines ctx SymbolKind.cls name lineno end_lineno,
            ?_, ?_⟩
          · simp [symbolsFromStmt]
          · rw [h2]
            rfl
        · obtain ⟨sym, hmem, hid⟩ := h2
          exact ⟨sym, by simp only [symbolsFromStmt]; exact List.mem_cons_of_mem _ hmem, hid⟩
  | .importS names => by
      intro ctx st c hc
      simp only [visitCallStmt, applyImport] at hc
      exact Or.inl hc
  | .importFromS moduleName names => by
      intro ctx st c hc
      simp only [visitCallStmt, applyImportFrom] at hc
      exact Or.inl hc
  | .annAssign target value lineno => by
      intro ctx st c hc
      cases value with
      | some e =>
          simp only [visitCallStmt] at hc
          rcases visitCallExpr_calls_ok module relPath idx e ctx st c hc with h1 | h1
          · exact Or.inl h1
          · exact Or.inr ⟨Or.inl h1.1, h1.2⟩
      | none =>
          simp only [visitCallStmt] at hc
          exact Or.inl hc
  | .exprS e => by
      intro ctx st c hc
      simp only [visitCallStmt] at hc
      rcases visitCallExpr_calls_ok module relPath idx e ctx st c hc with h1 | h1
      · exact Or.inl h1
      · exact Or.inr ⟨Or.inl h1.1, h1.2⟩
  | .otherS exprs body => by
      intro ctx st c hc
      simp only [visitCallStmt] at hc
      rcases visitCallStmts_calls_ok module relPath idx lines body ctx _ c hc with h1 | h1
      · rcases visitCallExprs_calls_ok module relPath idx exprs ctx st c h1 with h2 | h2
        · exact Or.inl h2
        · exact Or.inr ⟨Or.inl h2.1, h2.2⟩
      · obtain ⟨hcaller, hres⟩ := h1
        refine Or.inr ⟨?_, hres⟩
        rcases hcaller with h2 | h2
        · exact Or.inl h2
        · obtain ⟨sym, hmem, hid⟩ := h2
          exact Or.inr ⟨sym, by simpa [symbolsFromStmt] using hmem, hid⟩

/-- List version of the statement traversal property. -/
theorem visitCallStmts_calls_ok (module relPath : String) (idx : SymbolIndex)
    (lines : List String) :
    (ss : List PyStmt) → ∀ (ctx : List String) (st : CallVisitState) (c : Call),
      c ∈ (visitCallStmts module relPath idx ctx st ss).calls →
      c ∈ st.calls ∨
        ((c.caller_id = currentCallerId module ctx ∨
            ∃ sym ∈ symbolsFromStmts module relPath lines ctx ss, c.caller_id = sym.id) ∧
          calleeResolvable idx c)
  | [] => by
      intro ctx st c hc
      simp only [visitCallStmts] at hc
      exact Or.inl hc
  | s :: rest => by
      intro ctx st c hc
      simp only [visitCallStmts] at hc
      rcases visitCallStmts_calls_ok module relPath idx lines rest ctx _ c hc with h1 | h1
      · rcases visitCallStmt_calls_ok module relPath idx lines s ctx st c h1 with h2 | h2
        · exact Or.inl h2
        · obtain ⟨hcaller, hres⟩ := h2
          refine Or.inr ⟨?_, hres⟩
          rcases hcaller with h3 | h3
          · exact Or.inl h3
          · obtain ⟨sym, hmem, hid⟩ := h3
            refine Or.inr ⟨sym, ?_, hid⟩
            simp only [symbolsFromStmts, List.mem_append]
            exact Or.inl hmem
      · obtain ⟨hcaller, hres⟩ := h1
        refine Or.inr ⟨?_, hres⟩
        rcases hcaller with h3 | h3
        · exact Or.inl h3
        · obtain ⟨sym, hmem, hid⟩ := h3
          refine Or.inr ⟨sym, ?_, hid⟩
          simp only [symbolsFromStmts, List.mem_append]
          exact Or.inr hmem

end

/-- Presence of a choice. -/
theorem orElseOpt_isSome {α : Type} (a b : Option α) :
    (orElseOpt a b).isSome = (a.isSome || b.isSome) := by
  cases a <;> simp [orElseOpt]

/-- A member's id always has a last match. -/
theorem lastMatch_isSome_of_mem {sym : Symbol} {ds : List Symbol} (h : sym ∈ ds) :
    (lastMatch sym.id ds).isSome = true := by
  induction ds with
  | nil => simp at h
  | cons d rest ih =>
      simp only [lastMatch, orElseOpt_isSome]
      rcases List.mem_cons.mp h with h1 | h1
      · subst h1
        simp

      · rw [ih h1]
        simp

/-- A member's id always has a first match. -/
theorem firstMatch_isSome_of_mem {sym : Symbol} {ds : List Symbol} (h : sym ∈ ds) :
    (firstMatch sym.id ds).isSome = true := by
  induction ds with
  | nil => simp at h
  | cons d rest ih =>
      simp only [firstMatch]
      by_cases h2 : d.id = sym.id
      · simp [h2]
      · rcases List.mem_cons.mp h with h1 | h1
        · subst h1
          exact absurd rfl h2
        · simp [h2, ih h1]

/-- A last match is a member carrying the id. -/
theorem lastMatch_mem {id : String} {ds : List Symbol} {s : Symbol}
    (h : lastMatch id ds = some s) : s ∈ ds ∧ s.id = id := by
  induction ds with
  | nil => simp [lastMatch] at h
  | cons d rest ih =>
      simp only [lastMatch] at h
      cases hr : lastMatch id rest with
      | some t =>
          rw [hr, orElseOpt_some] at h
          cases h
          rcases ih hr with ⟨hm, hid⟩
          exact ⟨List.mem_cons_of_mem _ hm, hid⟩
      | none =>
          rw [hr, orElseOpt_none] at h
          by_cases h2 : d.id = id
          · rw [if_pos h2] at h
            cases h
            exact ⟨List.mem_cons_self _ _, h2⟩
          · rw [if_neg h2] at h
            cases h

/-- A first match is a member carrying the id. -/
theorem firstMatch_mem {id : String} {ds : List Symbol} {s : Symbol}
    (h : firstMatch id ds = some s) : s ∈ ds ∧ s.id = id := by
  induction ds with
  | nil => simp [firstMatch] at h
  | cons d rest ih =>
      simp only [firstMatch] at h
      by_cases h2 : d.id = id
      · rw [if_pos h2] at h
        cases h
        exact ⟨List.mem_cons_self _ _, h2⟩
      · rw [if_neg h2] at h
        rcases ih h with ⟨hm, hid⟩
        exact ⟨List.mem_cons_of_mem _ hm, hid⟩

/-- Definition symbols decompose per file. -/
theorem allDefSymbols_mem {files : List PyFile} {s : Symbol}
    (h : s ∈ allDefSymbols files) : ∃ f ∈ files, s ∈ fileDefSymbols f := by
  induction files with
  | nil => simp [allDefSymbols] at h
  | cons f fs ih =>
      simp only [allDefSymbols, List.mem_append] at h
      rcases h with h1 | h1
      · exact ⟨f, List.mem_cons_self _ _, h1⟩
      · obtain ⟨g, hg, hs⟩ := ih h1
        exact ⟨g, List.mem_cons_of_mem _ hg, hs⟩

/-- A file's definition symbol appears among all definition symbols. -/
theorem allDefSymbols_mem_of {files : List PyFile} {f : PyFile} {s : Symbol}
    (hf : f ∈ files) (hs : s ∈ fileDefSymbols f) : s ∈ allDefSymbols files := by
  induction files with
  | nil => simp at hf
  | cons g gs ih =>
      simp only [allDefSymbols, List.mem_append]
      rcases List.mem_cons.mp hf with h1 | h1
      · subst h1
        exact Or.inl hs
      · exact Or.inr (ih h1)

/-- Module symbols decompose per file. -/
theorem allModuleSymbols_mem {files : List PyFile} {s : Symbol}
    (h : s ∈ allModuleSymbols files) : ∃ f ∈ files, s = fileModuleSymbol f := by
  induction files with
  | nil => simp [allModuleSymbols] at h
  | cons f fs ih =>
      simp only [allModuleSymbols] at h
      rcases List.mem_cons.mp h with h1 | h1
      · exact ⟨f, List.mem_cons_self _ _, h1⟩
      · obtain ⟨g, hg, hs⟩ := ih h1
        exact ⟨g, List.mem_cons_of_mem _ hg, hs⟩

/-- A file's module symbol appears among all module symbols. -/
theorem allModuleSymbols_mem_of {files : List PyFile} {f : PyFile}
    (hf : f ∈ files) : fileModuleSymbol f ∈ allModuleSymbols files := by
  induction files with
  | nil => simp at hf
  | cons g gs ih =>
      simp only [allModuleSymbols]
      rcases List.mem_cons.mp hf with h1 | h1
      · subst h1
        exact List.mem_cons_self _ _
      · exact List.mem_cons_of_mem _ (ih h1)

/-- A module symbol has module kind. -/
theorem fileModuleSymbol_kind (f : PyFile) :
    (fileModuleSymbol f).kind = SymbolKind.module := rfl

/-- A module symbol's id is the module name. -/
theorem fileModuleSymbol_id (f : PyFile) : (fileModuleSymbol f).id = f.module := rfl

/-- Kinds of a file's definition symbols. -/
theorem fileDefSymbols_kinds {f : PyFile} {sym : Symbol} (h : sym ∈ fileDefSymbols f) :
    isCallTargetKind sym.kind = true :=
  symbolsFromStmts_kinds f.module f.relPath f.sourceLines f.tree [] sym h

/-- Every stored symbol is a module, function, method or class symbol. -/
theorem resolve_symbols_lookup_kind {files : List PyFile} {id : String} {s : Symbol}
    (h : mapLookup (resolveProject files).symbols id = some s) :
    s.kind = SymbolKind.module ∨ s.kind = SymbolKind.function ∨
      s.kind = SymbolKind.method ∨ s.kind = SymbolKind.cls := by
  have hrw : (resolveProject files).symbols = files.foldl insertFileSymbols [] := rfl
  rw [hrw, mapLookup_resolve_fold] at h
  cases hl : lastMatch id (allDefSymbols files) with
  | some t =>
      rw [hl, orElseOpt_some] at h
      cases h
      obtain ⟨hm, hid2⟩ := lastMatch_mem hl
      have hk := fileDefSymbols_kinds (allDefSymbols_mem hm).choose_spec.2
      cases hkind : s.kind <;> rw [hkind] at hk <;> simp [isCallTargetKind] at hk <;>
        simp [hkind]
  | none =>
      rw [hl, orElseOpt_none] at h
      simp only [mapLookup, orElseOpt_none] at h
      obtain ⟨hm, hid2⟩ := firstMatch_mem h
      obtain ⟨f, hf, hs2⟩ := allModuleSymbols_mem hm
      left
      rw [hs2, fileModuleSymbol_kind]

/-- A definition symbol's id is a key of the final symbol table. -/
theorem resolve_symbols_key_of_def {files : List PyFile} {f : PyFile} {sym : Symbol}
    (hf : f ∈ files) (hs : sym ∈ fileDefSymbols f) :
    (mapLookup (resolveProject files).symbols sym.id).isSome = true := by
  have hrw : (resolveProject files).symbols = files.foldl insertFileSymbols [] := rfl
  rw [hrw, mapLookup_resolve_fold, orElseOpt_isSome]
  rw [lastMatch_isSome_of_mem (allDefSymbols_mem_of hf hs)]
  simp

/-- Every analysed file's module name is a key of the final symbol table. -/
theorem resolve_symbols_key_of_module {files : List PyFile} {f : PyFile}
    (hf : f ∈ files) :
    (mapLookup (resolveProject files).symbols f.module).isSome = true := by
  have hrw : (resolveProject files).symbols = files.foldl insertFileSymbols [] := rfl
  rw [hrw, mapLookup_resolve_fold, orElseOpt_isSome, orElseOpt_isSome]
  have h1 : (firstMatch f.module (allModuleSymbols files)).isSome = true := by
    have h2 := firstMatch_isSome_of_mem (allModuleSymbols_mem_of hf)
    rw [fileModuleSymbol_id] at h2
    exact h2
  rw [h1]
  simp

/-- Members of the overwrite fold come from the start map or are a folded
symbol keyed by its own id. -/
theorem foldl_insert_mem {ds : List Symbol} {m : List (String × Symbol)}
    {kv : String × Symbol}
    (h : kv ∈ ds.foldl (fun acc s => mapInsert acc s.id s) m) :
    kv ∈ m ∨ ∃ s ∈ ds, kv = (s.id, s) := by
  induction ds generalizing m with
  | nil => exact Or.inl h
  | cons s ds ih =>
      simp only [List.foldl_cons] at h
      rcases ih h with h1 | h1
      · rcases mapInsert_mem h1 with h2 | h2
        · exact Or.inl h2
        · exact Or.inr ⟨s, List.mem_cons_self _ _, h2⟩
      · obtain ⟨t, ht, hkv⟩ := h1
        exact Or.inr ⟨t, List.mem_cons_of_mem _ ht, hkv⟩

/-- In the final symbol table, each entry's value carries its key as id. -/
theorem resolve_symbols_id_eq_key {files : List PyFile} {kv : String × Symbol}
    (h : kv ∈ files.foldl insertFileSymbols []) : kv.2.id = kv.1 := by
  suffices hgen : ∀ (fs : List PyFile) (m : List (String × Symbol)),
      (∀ kv2 ∈ m, kv2.2.id = kv2.1) →
      ∀ kv2 ∈ fs.foldl insertFileSymbols m, kv2.2.id = kv2.1 by
    exact hgen files [] (by simp) kv h
  intro fs
  induction fs with
  | nil =>
      intro m hm kv2 h2
      exact hm kv2 h2
  | cons f fs ih =>
      intro m hm kv2 h2
      simp only [List.foldl_cons] at h2
      refine ih _ ?_ kv2 h2
      intro kv3 h3
      unfold insertFileSymbols at h3
      rcases foldl_insert_mem h3 with h4 | h4
      · rcases mapInsertIfAbsent_mem h4 with h5 | h5
        · exact hm kv3 h5
        · rw [h5]
      · obtain ⟨s, hsm, hkv3⟩ := h4
        rw [hkv3]

/-- Members of index candidate lists after one addition. -/
theorem indexAdd_mem {idx : SymbolIndex} {key : String × String} {sym : Symbol}
    {kv : (String × String) × List Symbol} {t : Symbol}
    (hkv : kv ∈ indexAdd idx key sym) (ht : t ∈ kv.2) :
    (∃ kv2 ∈ idx, t ∈ kv2.2) ∨ t = sym := by
  unfold indexAdd at hkv
  cases hlk : mapLookup idx key with
  | some syms =>
      rw [hlk] at hkv
      rcases mapInsert_mem hkv with h1 | h1
      · exact Or.inl ⟨kv, h1, ht⟩
      · subst h1
        simp only at ht
        rcases List.mem_append.mp ht with h2 | h2
        · exact Or.inl ⟨(key, syms), mapLookup_mem hlk, h2⟩
        · simp at h2
          exact Or.inr h2
  | none =>
      rw [hlk] at hkv
      rcases mapInsert_mem hkv with h1 | h1
      · exact Or.inl ⟨kv, h1, ht⟩
      · subst h1
        simp at ht
        exact Or.inr ht

/-- Every symbol stored in the index is a value of the symbol table. -/
theorem buildSymbolIndex_mem {symbols : List (String × Symbol)}
    {kv : (String × String) × List Symbol} {t : Symbol}
    (hkv : kv ∈ buildSymbolIndex symbols) (ht : t ∈ kv.2) :
    ∃ k, (k, t) ∈ symbols := by
  unfold buildSymbolIndex at hkv
  suffices hgen : ∀ (L : List (String × Symbol)) (idx0 : SymbolIndex),
      (∀ kv2 ∈ idx0, ∀ u ∈ kv2.2, ∃ k, (k, u) ∈ symbols) →
      (∀ kv2 ∈ L, kv2 ∈ symbols) →
      ∀ kv2 ∈ L.foldl
          (fun idx kv3 =>
            if isCallTargetKind kv3.2.kind then
              indexAdd idx (kv3.2.module, kv3.2.name) kv3.2
            else idx)
          idx0,
        ∀ u ∈ kv2.2, ∃ k, (k, u) ∈ symbols by
    exact hgen symbols [] (by simp) (fun kv2 h2 => h2) kv hkv t ht
  intro L
  induction L with
  | nil =>
      intro idx0 h0 hL kv2 h2 u hu
      exact h0 kv2 h2 u hu
  | cons e L ih =>
      intro idx0 h0 hL kv2 h2 u hu
      simp only [List.foldl_cons] at h2
      refine ih _ ?_ (fun kv3 h3 => hL kv3 (List.mem_cons_of_mem _ h3)) kv2 h2 u hu
      intro kv3 h3 w hw
      by_cases hk : isCallTargetKind e.2.kind
      · rw [if_pos hk] at h3
        rcases indexAdd_mem h3 hw with h4 | h4
        · obtain ⟨kv4, hkv4, hw4⟩ := h4
          exact h0 kv4 hkv4 w hw4
        · subst h4
          exact ⟨e.1, by simpa using hL e (List.mem_cons_self _ _)⟩
      · rw [if_neg hk] at h3
        exact h0 kv3 h3 w hw

/-- Fold-append membership decomposition. -/
theorem foldl_append_mem {α β : Type} (g : β → List α) :
    ∀ (L : List β) (acc : List α) (x : α),
      x ∈ L.foldl (fun cs f => cs ++ g f) acc → x ∈ acc ∨ ∃ f ∈ L, x ∈ g f := by
  intro L
  induction L with
  | nil =>
      intro acc x hx
      exact Or.inl hx
  | cons f L ih =>
      intro acc x hx
      simp only [List.foldl_cons] at hx
      rcases ih _ x hx with h1 | h1
      · rcases List.mem_append.mp h1 with h2 | h2
        · exact Or.inl h2
        · exact Or.inr ⟨f, List.mem_cons_self _ _, h2⟩
      · obtain ⟨f2, hf2, hx2⟩ := h1
        exact Or.inr ⟨f2, List.mem_cons_of_mem _ hf2, hx2⟩

/-- Every recorded call belongs to the second-pass traversal of one of
the analysed files. -/
theorem resolve_calls_mem {files : List PyFile} {c : Call}
    (h : c ∈ (resolveProject files).calls) :
    ∃ f ∈ files,
      c ∈ (visitCallStmts f.module f.relPath
            (buildSymbolIndex (files.foldl insertFileSymbols [])) [] ⟨[], []⟩
            f.tree).calls := by
  have hrw : (resolveProject files).calls =
      files.foldl
        (fun cs f =>
          cs ++ (visitCallStmts f.module f.relPath
              (buildSymbolIndex (files.foldl insertFileSymbols [])) [] ⟨[], []⟩
              f.tree).calls)
        [] := rfl
  rw [hrw] at h
  rcases foldl_append_mem _ files [] c h with h1 | h1
  · simp at h1
  · exact h1

/-- C7, counterexample: a call performed directly in a class body has the
class symbol as its caller: on classBodyCallFile the single recorded call
has caller id m.C, whose symbol kind is class, not module, function or
method as the claim states. -/
theorem c7_counterexample :
    (resolveProject [classBodyCallFile]).calls =
        [⟨"m.C", ⟨"m.py", 2, 4⟩, "f", none⟩] ∧
      (mapLookup (resolveProject [classBodyCallFile]).symbols "m.C").map Symbol.kind =
        some SymbolKind.cls := by
  exact ⟨by rfl, by rfl⟩

/-- C7, amended: every Call's caller id is a key of the symbol table and
refers to a symbol of kind module, function, method, or class (a call in a
class body has the class as caller); whenever the callee id is set it is
also a key of the symbol table. -/
theorem c7_referential_integrity_with_class_callers (files : List PyFile) (c : Call)
    (hc : c ∈ (resolveProject files).calls) :
    (∃ s, mapLookup (resolveProject files).symbols c.caller_id = some s ∧
        (s.kind = SymbolKind.module ∨ s.kind = SymbolKind.function ∨
          s.kind = SymbolKind.method ∨ s.kind = SymbolKind.cls)) ∧
      ∀ i, c.callee_id = some i →
        (mapLookup (resolveProject files).symbols i).isSome = true := by
  obtain ⟨f, hf, hcf⟩ := resolve_calls_mem hc
  rcases visitCallStmts_calls_ok f.module f.relPath
      (buildSymbolIndex (files.foldl insertFileSymbols [])) f.sourceLines f.tree []
      ⟨[], []⟩ c hcf with h1 | h1
  · simp at h1
  · obtain ⟨hcaller, hres⟩ := h1
    have hkey : (mapLookup (resolveProject files).symbols c.caller_id).isSome = true := by
      rcases hcaller with h2 | h2
      · have h3 : currentCallerId f.module [] = f.module := rfl
        rw [h2, h3]
        exact resolve_symbols_key_of_module hf
      · obtain ⟨sym, hmem, hid⟩ := h2
        rw [hid]
        exact resolve_symbols_key_of_def hf hmem
    refine ⟨?_, ?_⟩
    · obtain ⟨s, hs⟩ := Option.isSome_iff_exists.mp hkey
      exact ⟨s, hs, resolve_symbols_lookup_kind hs⟩
    · intro i hi
      obtain ⟨kv, hkv, s, hskv, hsid⟩ := hres i hi
      obtain ⟨k, hks⟩ := buildSymbolIndex_mem hkv hskv
      have hkeq : s.id = k := resolve_symbols_id_eq_key hks
      have hsymrw : (resolveProject files).symbols = files.foldl insertFileSymbols [] := rfl
      rw [hsymrw, ← hsid, hkeq]
      exact mem_mapLookup_isSome hks

/-- C7, witness: the amended integrity statement instantiated at the
class-instantiation project and its recorded call. -/
theorem c7_referential_integrity_witness :
    (∃ s, mapLookup (resolveProject [classesFile]).symbols "classes.create_instance" =
          some s ∧
        (s.kind = SymbolKind.module ∨ s.kind = SymbolKind.function ∨
          s.kind = SymbolKind.method ∨ s.kind = SymbolKind.cls)) ∧
      ∀ i, (some "classes.MyClass" : Option String) = some i →
        (mapLookup (resolveProject [classesFile]).symbols i).isSome = true := by
  exact c7_referential_integrity_with_class_callers [classesFile]
    ⟨"classes.create_instance", ⟨"classes.py", 6, 10⟩, "MyClass", some "classes.MyClass"⟩
    (by decide)

/-- A none-result of the neighbour scan means the target was found via a
non-skipped edge out of u. -/
theorem scanNeighbors_none (target : String) (skipEdge : String × String) (u : String) :
    ∀ (ns visited acc : List String),
      scanNeighbors target skipEdge u ns visited acc = none →
      target ∈ ns ∧ (u, target) ≠ skipEdge := by
  intro ns
  induction ns with
  | nil =>
      intro visited acc h
      simp [scanNeighbors] at h
  | cons w ws ih =>
      intro visited acc h
      simp only [scanNeighbors] at h
      by_cases h1 : (u, w) = skipEdge
      · rw [if_pos h1] at h
        obtain ⟨hm, hne⟩ := ih _ _ h
        exact ⟨List.mem_cons_of_mem _ hm, hne⟩
      · rw [if_neg h1] at h
        by_cases h2 : w = target
        · constructor
          · rw [← h2]
            exact List.mem_cons_self _ _
          · rw [← h2]
            exact h1
        · rw [if_neg h2] at h
          by_cases h3 : visited.contains w
          · rw [if_pos h3] at h
            obtain ⟨hm, hne⟩ := ih _ _ h
            exact ⟨List.mem_cons_of_mem _ hm, hne⟩
          · rw [if_neg h3] at h
            obtain ⟨hm, hne⟩ := ih _ _ h
            exact ⟨List.mem_cons_of_mem _ hm, hne⟩

/-- Queue additions of the neighbour scan are non-skipped neighbours of u
(or were already in the addition accumulator). -/
theorem scanNeighbors_some (target : String) (skipEdge : String × String) (u : String) :
    ∀ (ns visited acc visited2 adds : List String),
      scanNeighbors target skipEdge u ns visited acc = some (visited2, adds) →
      ∀ w ∈ adds, w ∈ acc ∨ (w ∈ ns ∧ (u, w) ≠ skipEdge) := by
  intro ns
  induction ns with
  | nil =>
      intro visited acc visited2 adds h w hw
      simp only [scanNeighbors] at h
      cases h
      exact Or.inl hw
  | cons x ws ih =>
      intro visited acc visited2 adds h w hw
      simp only [scanNeighbors] at h
      by_cases h1 : (u, x) = skipEdge
      · rw [if_pos h1] at h
        rcases ih _ _ _ _ h w hw with h2 | ⟨h3, h4⟩
        · exact Or.inl h2
        · exact Or.inr ⟨List.mem_cons_of_mem _ h3, h4⟩
      · rw [if_neg h1] at h
        by_cases h2 : x = target
        · rw [if_pos h2] at h
          cases h
        · rw [if_neg h2] at h
          by_cases h3 : visited.contains x
          · rw [if_pos h3] at h
            rcases ih _ _ _ _ h w hw with h4 | ⟨h5, h6⟩
            · exact Or.inl h4
            · exact Or.inr ⟨List.mem_cons_of_mem _ h5, h6⟩
          · rw [if_neg h3] at h
            rcases ih _ _ _ _ h w hw with h4 | ⟨h5, h6⟩
            · rcases List.mem_append.mp h4 with h7 | h7
              · exact Or.inl h7
              · simp at h7
                subst h7
                exact Or.inr ⟨List.mem_cons_self _ _, h1⟩
            · exact Or.inr ⟨List.mem_cons_of_mem _ h5, h6⟩

/-- Soundness of the fuelled search loop: if it answers true and every
queued vertex is avoid-reachable from the start, the target is
avoid-reachable from the start. -/
theorem bfsLoop_sound (adj : List (String × List String)) (target : String)
    (skipEdge : String × String) (start : String) :
    ∀ (fuel : Nat) (queue visited : List String),
      (∀ x ∈ queue, Relation.ReflTransGen (AvoidStep adj skipEdge) start x) →
      bfsLoop adj target skipEdge fuel queue visited = true →
      Relation.ReflTransGen (AvoidStep adj skipEdge) start target := by
  intro fuel
  induction fuel with
  | zero =>
      intro queue visited hq h
      simp [bfsLoop] at h
  | succ fuel ih =>
      intro queue visited hq h
      cases queue with
      | nil => simp [bfsLoop] at h
      | cons u rest =>
          simp only [bfsLoop] at h
          split at h
          next hscan =>
              obtain ⟨hm, hne⟩ := scanNeighbors_none target skipEdge u _ _ _ hscan
              exact (hq u (List.mem_cons_self _ _)).tail ⟨hm, hne⟩
          next visited2 adds hscan =>
              refine ih (rest ++ adds) visited2 ?_ h
              intro x hx
              rcases List.mem_append.mp hx with h1 | h1
              · exact hq x (List.mem_cons_of_mem _ h1)
              · rcases scanNeighbors_some target skipEdge u _ _ _ _ _ hscan x h1
                  with h2 | ⟨h3, h4⟩
                · simp at h2
                · exact (hq u (List.mem_cons_self _ _)).tail ⟨h3, h4⟩

/-- Soundness of _has_alternate_path: a true answer exhibits a path from
start to target avoiding the skipped edge. -/
theorem hasAlternatePath_sound (adj : List (String × List String))
    (start target : String) (skipEdge : String × String)
    (h : hasAlternatePath adj start target skipEdge = true) :
    Relation.ReflTransGen (AvoidStep adj skipEdge) start target := by
  unfold hasAlternatePath at h
  refine bfsLoop_sound adj target skipEdge start _ [start] [start] ?_ h
  intro x hx
  simp at hx
  subst hx
  exact Relation.ReflTransGen.refl

/-- The adjacency seed of all-empty neighbour sets. -/
theorem adjGet_seed (nodes : List (String × GraphNode)) (u : String) :
    adjGet (nodes.map (fun kv => (kv.1, []))) u = ([] : List String) := by
  induction nodes with
  | nil => rfl
  | cons kv rest ih =>
      simp only [List.map_cons, adjGet, mapLookup] at ih ⊢
      by_cases h : kv.1 = u
      · simp [h]
      · simp only [if_neg h]
        exact ih

/-- Neighbour membership after one adjacency addition. -/
theorem adjAdd_mem {adj : List (String × List String)} {x y u w : String}
    (h : w ∈ adjGet (adjAdd adj x y) u) :
    w ∈ adjGet adj u ∨ (u = x ∧ w = y) := by
  unfold adjAdd at h
  split at h
  next vs hlk =>
    by_cases hc : vs.contains y = true
    · rw [if_pos hc] at h
      exact Or.inl h
    · rw [if_neg hc] at h
      unfold adjGet at h ⊢
      rw [mapLookup_insert] at h
      by_cases hxu : x = u
      · rw [if_pos hxu] at h
        simp only [Option.getD_some] at h
        rcases List.mem_append.mp h with h1 | h1
        · refine Or.inl ?_
          rw [← hxu, hlk]
          exact h1
        · simp at h1
          exact Or.inr ⟨hxu.symm, h1⟩
      · rw [if_neg hxu] at h
        exact Or.inl h
  next hlk =>
    unfold adjGet at h ⊢
    rw [mapLookup_insert] at h
    by_cases hxu : x = u
    · rw [if_pos hxu] at h
      simp only [Option.getD_some] at h
      simp at h
      exact Or.inr ⟨hxu.symm, h⟩
    · rw [if_neg hxu] at h
      exact Or.inl h

/-- Every neighbour step of the adjacency built by the pruning pass is an
edge of the original edge set. -/
theorem buildAdjacency_mem {nodes : List (String × GraphNode)}
    {edges : List ((String × String) × GraphEdge)} {u w : String}
    (h : w ∈ adjGet (buildAdjacency nodes edges) u) : isEdge edges u w = true := by
  unfold buildAdjacency at h
  suffices hgen : ∀ (L : List ((String × String) × GraphEdge))
      (adj0 : List (String × List String)),
      (∀ u2 w2, w2 ∈ adjGet adj0 u2 → isEdge edges u2 w2 = true) →
      (∀ kv ∈ L, kv ∈ edges) →
      ∀ u2 w2,
        w2 ∈ adjGet (L.foldl (fun adj kv => adjAdd adj kv.2.src kv.2.dst) adj0) u2 →
        isEdge edges u2 w2 = true by
    refine hgen edges _ ?_ (fun kv hkv => hkv) u w h
    intro u2 w2 h2
    rw [adjGet_seed] at h2
    simp at h2
  intro L
  induction L with
  | nil =>
      intro adj0 h0 hL u2 w2 h2
      exact h0 u2 w2 h2
  | cons kv L ih =>
      intro adj0 h0 hL u2 w2 h2
      simp only [List.foldl_cons] at h2
      refine ih _ ?_ (fun kv2 hkv2 => hL kv2 (List.mem_cons_of_mem _ hkv2)) u2 w2 h2
      intro u3 w3 h3
      rcases adjAdd_mem h3 with h4 | ⟨h5, h6⟩
      · exact h0 u3 w3 h4
      · have hkv := hL kv (List.mem_cons_self _ _)
        unfold isEdge
        rw [List.any_eq_true]
        exact ⟨kv, hkv, by simp [h5, h6]⟩

/-- Pruned edges are original edges. -/
theorem pruneTransitiveEdges_isEdge {nodes : List (String × GraphNode)}
    {edges : List ((String × String) × GraphEdge)} {u v : String}
    (h : isEdge (pruneTransitiveEdges nodes edges) u v = true) :
    isEdge edges u v = true := by
  simp only [pruneTransitiveEdges] at h
  unfold isEdge at h ⊢
  rw [List.any_eq_true] at h ⊢
  obtain ⟨kv, hkv, hp⟩ := h
  exact ⟨kv, List.mem_of_mem_filter hkv, hp⟩

/-- An edge with no alternate path survives the pruning pass. -/
theorem pruneTransitiveEdges_keep {nodes : List (String × GraphNode)}
    {edges : List ((String × String) × GraphEdge)} {u v : String}
    (he : isEdge edges u v = true)
    (hno : hasAlternatePath (buildAdjacency nodes edges) u v (u, v) = false) :
    isEdge (pruneTransitiveEdges nodes edges) u v = true := by
  unfold isEdge at he ⊢
  rw [List.any_eq_true] at he ⊢
  obtain ⟨kv, hkv, hp⟩ := he
  rw [decide_eq_true_eq] at hp
  obtain ⟨hsrc, hdst⟩ := hp
  refine ⟨kv, ?_, by rw [decide_eq_true_eq]; exact ⟨hsrc, hdst⟩⟩
  simp only [pruneTransitiveEdges]
  rw [List.mem_filter]
  refine ⟨hkv, ?_⟩
  rw [hsrc, hdst, hno]
  rfl

/-- An avoid step of the built adjacency is an original edge distinct from
the skipped one. -/
theorem avoidStep_isEdge {nodes : List (String × GraphNode)}
    {edges : List ((String × String) × GraphEdge)} {skipEdge : String × String}
    {x y : String} (h : AvoidStep (buildAdjacency nodes edges) skipEdge x y) :
    isEdge edges x y = true ∧ (x, y) ≠ skipEdge :=
  ⟨buildAdjacency_mem h.1, h.2⟩

/-- A ranking that increases along edges is monotone along reachability. -/
theorem rank_le_of_reach {R : String → String → Prop} {rank : String → Nat}
    (hr : ∀ a b, R a b → rank a < rank b) {x y : String}
    (h : Relation.ReflTransGen R x y) : rank x ≤ rank y := by
  induction h with
  | refl => exact Nat.le_refl _
  | tail hab hbc ih => exact Nat.le_trans ih (Nat.le_of_lt (hr _ _ hbc))

/-- A ranking increases strictly along nonempty reachability. -/
theorem rank_lt_of_reach_ne {R : String → String → Prop} {rank : String → Nat}
    (hr : ∀ a b, R a b → rank a < rank b) {x y : String}
    (h : Relation.ReflTransGen R x y) (hne : x ≠ y) : rank x < rank y := by
  rcases Relation.ReflTransGen.cases_head h with h1 | ⟨c, hxc, hcy⟩
  · exact absurd h1 hne
  · exact Nat.lt_of_lt_of_le (hr _ _ hxc) (rank_le_of_reach hr hcy)

/-- In a ranked (hence acyclic) edge set, every original edge has a path
in the pruned edge set: a removed edge's alternate path consists of edges
with strictly smaller rank span, which have pruned paths by strong
induction. -/
theorem edge_pruned_reach (nodes : List (String × GraphNode))
    (edges : List ((String × String) × GraphEdge)) (rank : String → Nat)
    (hrank : ∀ a b, isEdge edges a b = true → rank a < rank b) :
    ∀ (n : Nat) (u v : String), isEdge edges u v = true → rank v - rank u ≤ n →
      Reachable (pruneTransitiveEdges nodes edges) u v := by
  intro n
  induction n using Nat.strong_induction_on with
  | _ n ihn =>
      intro u v he hn
      by_cases halt : hasAlternatePath (buildAdjacency nodes edges) u v (u, v) = true
      case neg =>
          have hfalse : hasAlternatePath (buildAdjacency nodes edges) u v (u, v) = false :=
            Bool.eq_false_iff.mpr halt
          exact Relation.ReflTransGen.single (pruneTransitiveEdges_keep he hfalse)
      case pos =>
          have hpath := hasAlternatePath_sound _ _ _ _ halt
          have hchain : ∀ x,
              Relation.ReflTransGen (AvoidStep (buildAdjacency nodes edges) (u, v)) x v →
              Relation.ReflTransGen (fun a b => isEdge edges a b = true) u x →
              Reachable (pruneTransitiveEdges nodes edges) x v := by
            intro x hp
            induction hp using Relation.ReflTransGen.head_induction_on with
            | refl =>
                intro _
                exact Relation.ReflTransGen.refl
            | head h1 h2 ih2 =>
                rename_i a c
                intro hpre
                obtain ⟨hedge_ac, hne_ac⟩ := avoidStep_isEdge h1
                have hreach_cv : Relation.ReflTransGen
                    (fun a b => isEdge edges a b = true) c v :=
                  Relation.ReflTransGen.mono (fun p q hpq => (avoidStep_isEdge hpq).1) h2
                have hua : rank u ≤ rank a := rank_le_of_reach hrank hpre
                have hcv : rank c ≤ rank v := rank_le_of_reach hrank hreach_cv
                have hac : rank a < rank c := hrank _ _ hedge_ac
                have hm_lt : rank c - rank a < n := by
                  by_cases hau : a = u
                  · subst hau
                    have hcv_ne : c ≠ v := by
                      intro hcveq
                      exact hne_ac (by rw [hcveq])
                    have hlt := rank_lt_of_reach_ne hrank hreach_cv hcv_ne
                    omega
                  · have h5 : rank u < rank a :=
                      rank_lt_of_reach_ne hrank hpre (fun h6 => hau h6.symm)
                    omega
                have hstep : Reachable (pruneTransitiveEdges nodes edges) a c :=
                  ihn (rank c - rank a) hm_lt a c hedge_ac (Nat.le_refl _)
                exact hstep.trans
                  (ih2 (hpre.trans (Relation.ReflTransGen.single hedge_ac)))
          exact hchain u hpath Relation.ReflTransGen.refl

/-- C6, counterexample: on the cyclic graph c6Edges (a to b, a to c, and a
two-cycle b, c), both edges out of a are redundant against the original
edge set, the batch removal deletes both, and b is no longer reachable
from a in the pruned graph although it was in the original: the pass does
not preserve reachability in general. -/
theorem c6_counterexample :
    Reachable c6Edges "a" "b" ∧
      ¬ Reachable (pruneTransitiveEdges c6Nodes c6Edges) "a" "b" := by
  constructor
  · exact Relation.ReflTransGen.single (by decide)
  · intro h
    have hpr : pruneTransitiveEdges c6Nodes c6Edges =
        [(("b", "c"), ⟨"b", "c", 1, [3]⟩), (("c", "b"), ⟨"c", "b", 1, [4]⟩)] := by decide
    have hno : ∀ x, isEdge (pruneTransitiveEdges c6Nodes c6Edges) "a" x = false := by
      intro x
      rw [hpr]
      rfl
    rcases Relation.ReflTransGen.cases_head h with h1 | ⟨c, hrel, hreach⟩
    · exact absurd h1 (by decide)
    · rw [hno c] at hrel
      cases hrel

/-- C6, amended: the pruning pass never adds reachability, and it
preserves reachability whenever the edge set is acyclic (witnessed by a
ranking that increases along every edge); on cyclic graphs reachability
can shrink, as the counterexample shows. -/
theorem c6_pruning_preserves_reachability_on_acyclic
    (nodes : List (String × GraphNode))
    (edges : List ((String × String) × GraphEdge)) :
    (∀ u v, Reachable (pruneTransitiveEdges nodes edges) u v → Reachable edges u v) ∧
      (∀ rank : String → Nat,
        (∀ u v, isEdge edges u v = true → rank u < rank v) →
        ∀ u v, Reachable edges u v → Reachable (pruneTransitiveEdges nodes edges) u v) := by
  constructor
  · intro u v h
    exact Relation.ReflTransGen.mono
      (fun a b hab => pruneTransitiveEdges_isEdge hab) h
  · intro rank hrank u v h
    replace h : Relation.ReflTransGen (fun a b => isEdge edges a b = true) u v := h
    induction h with
    | refl => exact Relation.ReflTransGen.refl
    | tail hab hbc ih =>
        exact ih.trans
          (edge_pruned_reach nodes edges rank hrank _ _ _ hbc (Nat.le_refl _))

/-- C6, witness: on the acyclic triangle of spec section 8 the pass
removes exactly the shortcut edge, and the amended theorem yields
reachability from a to c in the pruned graph. -/
theorem c6_pruning_witness :
    pruneTransitiveEdges c6Nodes c6AcyclicEdges =
        [(("a", "b"), ⟨"a", "b", 1, [1]⟩), (("b", "c"), ⟨"b", "c", 1, [2]⟩)] ∧
      Reachable (pruneTransitiveEdges c6Nodes c6AcyclicEdges) "a" "c" := by
  constructor
  · decide
  · refine (c6_pruning_preserves_reachability_on_acyclic c6Nodes c6AcyclicEdges).2
      (fun s => if s = "a" then 0 else if s = "b" then 1 else 2) ?_ "a" "c"
      (Relation.ReflTransGen.single (by decide))
    intro u v h
    unfold isEdge at h
    rw [List.any_eq_true] at h
    obtain ⟨kv, hkv, hp⟩ := h
    rw [decide_eq_true_eq] at hp
    obtain ⟨hsrc, hdst⟩ := hp
    simp only [c6AcyclicEdges, List.mem_cons] at hkv
    rcases hkv with h1 | h1 | h1 | h1
    case inr.inr.inr => exact absurd h1 (List.not_mem_nil kv)
    all_goals subst h1
    all_goals rw [← hsrc, ← hdst]
    all_goals decide

end PyCodemap
